import Mathlib

set_option maxHeartbeats 1000000
set_option maxRecDepth 4000

/-
Shallow embedding of the zoekt trigram code-search engine (index builder,
shard writer section order, result sorting, match tree iteration, match
scoring, and the regex-to-query distiller), together with proofs that settle
the specification claims against this code.

Machine integers are modelled as Nat with explicit `% 2^32` (resp. `% 2^64`)
at the points where the Go source uses uint32 (resp. uint) arithmetic.
Bytes are `Fin 256`.
-/

namespace Zoekt

abbrev Byte := Fin 256

/-- 2^32; Go uint32 arithmetic wraps modulo this constant. -/
def MOD32 : ℕ := 4294967296

/-- Modelled from the spec: the constant maxUInt32 (bits.go is not under
src/); all offsets and doc ids are unsigned 32-bit. -/
def maxUInt32 : ℕ := 4294967295

/-- Modelled from the spec: the NGram codec packs a 3-byte window as
`(b0<<16)|(b1<<8)|b2` (bits.go is not under src/; spec section 4.1). -/
def bytesToNGram (b0 b1 b2 : Byte) : ℕ := b0.val * 65536 + b1.val * 256 + b2.val

/-- `const ngramSize = 3` (indexbuilder.go). -/
def ngramSize : ℕ := 3

/-- `const maxTrigramCount = 20000` (indexbuilder.go). -/
def maxTrigramCount : ℕ := 20000

/-- The successive 3-byte windows of a byte string, as packed ngrams: the
window at position i covers bytes [i, i+3).  This is the iteration
`for i; i+ngramSize <= len; i++` shared by newSearchableString and the
trigram-count loop of IndexBuilder.Add. -/
def ngramList : List Byte → List ℕ
  | b0 :: b1 :: b2 :: rest => bytesToNGram b0 b1 b2 :: ngramList (b1 :: b2 :: rest)
  | _ => []

/-- Postings accumulate in a map ngram -> offsets (`map[ngram][]uint32`). -/
abbrev PostingsMap := ℕ → List ℕ

/-- `postings[ngram] = append(postings[ngram], off)` for one ngram key. -/
def postUpdate (P : PostingsMap) (g o : ℕ) : PostingsMap :=
  fun g2 => if g2 = g then P g2 ++ [o] else P g2

/-- The posting-update loop of newSearchableString (indexbuilder.go lines
45-51): for each window position i it appends `startOff + uint32(i)` to the
posting list of the window's ngram.  `off` carries `startOff + i`; the uint32
truncation of the Go source is the `% MOD32` on the appended value. -/
def nsPostLoop : PostingsMap → ℕ → List Byte → PostingsMap
  | P, _, [] => P
  | P, _, [_] => P
  | P, _, [_, _] => P
  | P, off, b0 :: b1 :: b2 :: rest =>
    nsPostLoop (postUpdate P (bytesToNGram b0 b1 b2) (off % MOD32)) (off + 1) (b1 :: b2 :: rest)

/-- searchableString: lower-cased data plus the offset of the content
(indexbuilder.go).  Lower-casing happens in callers that are out of scope;
the claims quantify over the stored bytes. -/
structure SearchableString where
  data : List Byte
  offset : ℕ

/-- newSearchableString (indexbuilder.go lines 40-53): build the entry and
update the postings map. -/
def newSearchableString (data : List Byte) (startOff : ℕ) (postings : PostingsMap) :
    SearchableString × PostingsMap :=
  (⟨data, startOff⟩, nsPostLoop postings startOff data)

structure DocumentSection where
  Start : ℕ
  End : ℕ
deriving DecidableEq

structure Document where
  Name : List Byte
  Content : List Byte
  Branches : List String
  Symbols : List DocumentSection

/-- IndexBuilder (indexbuilder.go).  The Go branch map `map[string]uint` is
modelled as an association list (insertion order is irrelevant to lookup and
length, which are all the code uses). -/
structure IndexBuilder where
  contentEnd : ℕ
  nameEnd : ℕ
  files : List SearchableString
  fileNames : List SearchableString
  docSections : List (List DocumentSection)
  branchMasks : List ℕ
  contentPostings : PostingsMap
  namePostings : PostingsMap
  branches : List (String × ℕ)

/-- NewIndexBuilder (indexbuilder.go). -/
def newIndexBuilder : IndexBuilder :=
  ⟨0, 0, [], [], [], [], fun _ => [], fun _ => [], []⟩

def branchLookup : List (String × ℕ) → String → Option ℕ
  | [], _ => none
  | (k, v) :: rest, br => if k = br then some v else branchLookup rest br

/-- IndexBuilder.addBranch (indexbuilder.go lines 143-151): on first
observation the branch gets `uint(1) << uint(len(b.branches))`; Go uint is
64-bit, so the shift wraps modulo 2^64. -/
def addBranchPure (branches : List (String × ℕ)) (br : String) : ℕ × List (String × ℕ) :=
  match branchLookup branches br with
  | some id => (id, branches)
  | none =>
    let id := 2 ^ branches.length % 2 ^ 64
    (id, branches ++ [(br, id)])

/-- IndexBuilder.AddBranch (indexbuilder.go lines 155-157). -/
def AddBranch (b : IndexBuilder) (br : String) : IndexBuilder :=
  { b with branches := (addBranchPure b.branches br).2 }

/-- The branch-mask loop of IndexBuilder.Add (indexbuilder.go lines 193-196):
`mask |= uint32(b.addBranch(br))`; the uint32 conversion is `% MOD32`. -/
def maskLoop : List (String × ℕ) → ℕ → List String → ℕ × List (String × ℕ)
  | branches, mask, [] => (mask, branches)
  | branches, mask, br :: rest =>
    let p := addBranchPure branches br
    maskLoop p.2 (mask ||| (p.1 % MOD32)) rest

/-- One step of the Go set insertion `trigrams[g] = struct{}{}`: the seen
list stays duplicate-free, so its length is the map's size. -/
def trigramSeen (seen : List ℕ) (g : ℕ) : List ℕ :=
  if g ∈ seen then seen else seen ++ [g]

/-- The trigram-count loop of IndexBuilder.Add (indexbuilder.go lines
163-173): insert each window's ngram into the set and bail out as soon as
the set size exceeds maxTrigramCount. -/
def tooManyLoop : List ℕ → List ℕ → Bool
  | _, [] => false
  | seen, g :: gs =>
    let seen2 := trigramSeen seen g
    if seen2.length > maxTrigramCount then true else tooManyLoop seen2 gs

/-- The windows inspected by the trigram-count loop: `doc.Content[i-3:i]`
for `i` in `[3, len)`, i.e. every window except the final one
([len-3, len) is never inspected because the loop stops at i = len-1). -/
def skipNonText (content : List Byte) : Bool :=
  tooManyLoop [] (ngramList content).dropLast

/-- Models `sort.Sort(docSectionSlice(doc.Symbols))` with Less = Start <:
a Start-sorted permutation of the sections.  Go's sort.Sort is unstable, but
no verified claim depends on the relative order of equal-Start sections. -/
def sortDocSections (l : List DocumentSection) : List DocumentSection :=
  List.insertionSort (fun s1 s2 => s1.Start ≤ s2.Start) l

/-- The overlap scan of IndexBuilder.Add (lines 177-185): consecutive
sorted sections with `last.End > s.Start` are an error. -/
def overlapCheck : List DocumentSection → Bool
  | s1 :: s2 :: rest => if s1.End > s2.Start then true else overlapCheck (s2 :: rest)
  | _ => false

inductive AddError
  | sectionsOverlap
deriving DecidableEq

/-- IndexBuilder.Add (indexbuilder.go lines 162-200).  The three outcomes of
the source in order: the non-text skip (`return nil` before any mutation),
the sections-overlap error (`return fmt.Errorf(...)` before any mutation),
and the success path that appends to every per-document array, advances
contentEnd/nameEnd with uint32 wrap-around, and or-accumulates the branch
mask. -/
def add (b : IndexBuilder) (doc : Document) : IndexBuilder × Option AddError :=
  if skipNonText doc.Content then (b, none)
  else
    let symbols := sortDocSections doc.Symbols
    if overlapCheck symbols then (b, some AddError.sectionsOverlap)
    else
      let pc := newSearchableString doc.Content b.contentEnd b.contentPostings
      let pn := newSearchableString doc.Name b.nameEnd b.namePostings
      let mb := maskLoop b.branches 0 doc.Branches
      ({ contentEnd := (b.contentEnd + doc.Content.length) % MOD32,
         nameEnd := (b.nameEnd + doc.Name.length) % MOD32,
         files := b.files ++ [pc.1],
         fileNames := b.fileNames ++ [pn.1],
         docSections := b.docSections ++ [symbols],
         branchMasks := b.branchMasks ++ [mb.1],
         contentPostings := pc.2,
         namePostings := pn.2,
         branches := mb.2 }, none)

/-- Repeated IndexBuilder.Add over a list of documents. -/
def addAll (b : IndexBuilder) (docs : List Document) : IndexBuilder :=
  docs.foldl (fun acc d => (add acc d).1) b

/-! ## Shard writer section order (unnamed/part_001) -/

inductive SectionTag
  | fileContents
  | fileNames
  | fileSections
  | newlines
  | ngramText
  | postings
  | nameNgramText
  | namePostings
  | branchMasks
  | branchNames
  | unaryData
deriving DecidableEq

/-- The order in which IndexBuilder.Write (part_001 lines 71-173) emits the
sections of the shard body, read off the statement sequence of Write: this
order is unconditional (it does not depend on the builder's contents). The
TOC and the trailing TOC-offset word follow the body and are not body
sections. -/
def writeBodyOrder : List SectionTag :=
  [SectionTag.fileContents, SectionTag.newlines, SectionTag.branchMasks,
   SectionTag.fileSections, SectionTag.ngramText, SectionTag.postings,
   SectionTag.fileNames, SectionTag.nameNgramText, SectionTag.namePostings,
   SectionTag.branchNames, SectionTag.unaryData]

/-- indexTOC.sections() (part_001 lines 47-61): the order in which the
(offset, size) pairs of the sections appear inside the TOC. -/
def tocSectionOrder : List SectionTag :=
  [SectionTag.fileContents, SectionTag.fileNames, SectionTag.fileSections,
   SectionTag.newlines, SectionTag.ngramText, SectionTag.postings,
   SectionTag.nameNgramText, SectionTag.namePostings, SectionTag.branchMasks,
   SectionTag.branchNames, SectionTag.unaryData]

/-! ## Result sorting (search.go, shards searcher aggregation) -/

/-- FileMatch as far as the final sort reads it: sort.Sort consults only
Score; the tag stands for the identifying fields (file name etc.) so that
stability is expressible. -/
structure FileMatch where
  tag : ℕ
  score : ℚ
deriving DecidableEq

/-- fileMatchSlice.Less(i, j) = m[i].Score > m[j].Score (search.go 153). -/
def fmLess (a b : FileMatch) : Bool := decide (b.score < a.score)

/-- data.Swap(i, j) on a slice: read both elements, then write both. -/
def swapAt (l : List FileMatch) (i j : ℕ) : List FileMatch :=
  let x := l.getD i ⟨0, 0⟩
  let y := l.getD j ⟨0, 0⟩
  (l.set i y).set j x

/-- The gap-6 Shell pass of Go sort.Sort (sort.go):
`for i := a+6; i < b; i++ { if Less(i, i-6) { Swap(i, i-6) } }`.
The fuel argument only bounds the iteration count; the pass runs while
`i < length`, and `sortFilesByScore` supplies enough fuel. -/
def shellLoop : ℕ → List FileMatch → ℕ → List FileMatch
  | 0, l, _ => l
  | fuel + 1, l, i =>
    if i < l.length then
      shellLoop fuel
        (if fmLess (l.getD i ⟨0, 0⟩) (l.getD (i - 6) ⟨0, 0⟩) then swapAt l (i - 6) i else l)
        (i + 1)
    else l

/-- The descending-score order underlying fileMatchSlice. -/
def scoreGE (a b : FileMatch) : Prop := b.score ≤ a.score

instance : DecidableRel scoreGE := fun a b => inferInstanceAs (Decidable (b.score ≤ a.score))

instance : IsTotal FileMatch scoreGE := ⟨fun a b => le_total b.score a.score⟩

instance : IsTrans FileMatch scoreGE := ⟨fun _ _ _ h1 h2 => le_trans h2 h1⟩

/-- sortFilesByScore (search.go 159-161): sort.Sort(fileMatchSlice(ms)).
For slices of at most 12 elements -- which includes every input the
stability counterexample uses -- Go sort.Sort (sort.go, Go up to 1.18) is
exactly the gap-6 Shell pass followed by a stable insertion sort, embedded
here; for longer slices the stdlib switches to introsort, which this model
replaces by the same insertion sort (both satisfy the identical
sorted-permutation contract, and neither is stable). -/
def sortFilesByScore (ms : List FileMatch) : List FileMatch :=
  List.insertionSort scoreGE (shellLoop ms.length ms 6)

/-- The claim's stability property: files with equal score keep their
relative order from before sorting. -/
def stableOnTies (input output : List FileMatch) : Prop :=
  ∀ x y, x ∈ input → y ∈ input → x.score = y.score →
    input.indexOf x < input.indexOf y → output.indexOf x < output.indexOf y

/-- Aggregated per-shard results whose sort breaks stability: the files with
tags 0 and 1 are tied at score 1. -/
def c3input : List FileMatch :=
  [⟨0, 1⟩, ⟨1, 1⟩, ⟨2, 0⟩, ⟨3, 0⟩, ⟨4, 0⟩, ⟨5, 0⟩, ⟨6, 2⟩]

/-! ## Match scoring (search.go) -/

/-- Modelled from the spec: byteClass distinguishes alphanumeric bytes from
all others (the helper lives in a file that is not under src/; spec section
4.6 says "byte-class boundary (alphanumeric vs not)"). -/
def byteClassOf (c : Byte) : ℕ :=
  if (97 ≤ c.val ∧ c.val ≤ 122) ∨ (65 ≤ c.val ∧ c.val ≤ 90) ∨ (48 ≤ c.val ∧ c.val ≤ 57)
  then 1 else 0

/-- Match as far as matchScore reads it.  LineOff and MatchLength are Go
ints; the claim's hypotheses restrict them to be nonnegative, so they are
modelled as Nat. -/
structure Match where
  Line : List Byte
  LineOff : ℕ
  MatchLength : ℕ
deriving DecidableEq

def scorePartialWordMatch : ℚ := 5000

def scoreWordMatch : ℚ := 50000

/-- matchScore (search.go lines 121-141).  The source panics when the match
end exceeds the line; that branch is `none`. -/
def matchScore (m : Match) : Option ℚ :=
  let startBoundary := m.LineOff < m.Line.length ∧
    (m.LineOff = 0 ∨
      byteClassOf (m.Line.getD (m.LineOff - 1) 0) ≠ byteClassOf (m.Line.getD m.LineOff 0))
  let e := m.LineOff + m.MatchLength
  if m.Line.length < e then none
  else
    let endBoundary := 0 < e ∧ (e = m.Line.length ∨
      byteClassOf (m.Line.getD (e - 1) 0) ≠ byteClassOf (m.Line.getD e 0))
    if startBoundary ∧ endBoundary then some scoreWordMatch
    else if startBoundary ∨ endBoundary then some scorePartialWordMatch
    else some 0

/-- The claim's reading of "the left end of the match falls on a byte-class
boundary, with the line start counting as a boundary". -/
def leftAtBoundary (m : Match) : Prop :=
  m.LineOff = 0 ∨ (m.LineOff < m.Line.length ∧
    byteClassOf (m.Line.getD (m.LineOff - 1) 0) ≠ byteClassOf (m.Line.getD m.LineOff 0))

/-- The claim's reading of "the right end of the match falls on a byte-class
boundary, with the line end counting as a boundary". -/
def rightAtBoundary (m : Match) : Prop :=
  m.LineOff + m.MatchLength = m.Line.length ∨ (0 < m.LineOff + m.MatchLength ∧
    byteClassOf (m.Line.getD (m.LineOff + m.MatchLength - 1) 0) ≠
      byteClassOf (m.Line.getD (m.LineOff + m.MatchLength) 0))

instance : DecidablePred leftAtBoundary := fun m => by
  unfold leftAtBoundary; infer_instance

instance : DecidablePred rightAtBoundary := fun m => by
  unfold rightAtBoundary; infer_instance

/-! ## Match tree iteration (matchtree.go) -/

/-- The matchTree interface together with the per-node mutable state, as a
sum type: docMatchTree {docs, current}, bruteForceMatchTree {firstDone,
docID}, and/or/not/noVisit, substrMatchTree (candidate file ids),
regexpMatchTree (which embeds a bruteForceMatchTree for nextDoc/prepare),
branchQueryMatchTree {fileMasks, mask, firstDone, docID}. -/
inductive MatchTree
  | docNode (docs current : List ℕ)
  | bruteForce (firstDone : Bool) (docID : ℕ)
  | andNode (children : List MatchTree)
  | orNode (children : List MatchTree)
  | notNode (child : MatchTree)
  | noVisit (inner : MatchTree)
  | substrNode (cands current : List ℕ) (contEvaluated coversContent : Bool)
  | regexNode (reEvaluated : Bool) (foundCount : ℕ) (firstDone : Bool) (docID : ℕ)
  | branchNode (fileMasks : List ℕ) (mask : ℕ) (firstDone : Bool) (docID : ℕ)

/-- The scan loop of branchQueryMatchTree.nextDoc (matchtree.go 239-251).
Fuel bounds the iteration count; callers pass enough for the loop to reach
`len(fileMasks)`. -/
def branchScan (fileMasks : List ℕ) (mask : ℕ) : ℕ → ℕ → ℕ
  | 0, _ => maxUInt32
  | fuel + 1, i =>
    if i < fileMasks.length then
      if mask &&& fileMasks.getD i 0 ≠ 0 then i else branchScan fileMasks mask fuel (i + 1)
    else maxUInt32

/-- nextDoc (matchtree.go lines 192-251), one case per node kind.  uint32
arithmetic (docID + 1) wraps modulo 2^32. -/
def nextDoc : MatchTree → ℕ
  | MatchTree.docNode docs _ =>
    match docs with
    | [] => maxUInt32
    | d :: _ => d
  | MatchTree.bruteForce firstDone docID => if firstDone then (docID + 1) % MOD32 else 0
  | MatchTree.andNode cs => (cs.attach.map fun c => nextDoc c.1).foldl max 0
  | MatchTree.orNode cs => (cs.attach.map fun c => nextDoc c.1).foldl min maxUInt32
  | MatchTree.notNode _ => 0
  | MatchTree.noVisit inner => nextDoc inner
  | MatchTree.substrNode cands _ _ _ =>
    match cands with
    | [] => maxUInt32
    | c :: _ => c
  | MatchTree.regexNode _ _ firstDone docID => if firstDone then (docID + 1) % MOD32 else 0
  | MatchTree.branchNode fileMasks mask firstDone docID =>
    branchScan fileMasks mask (fileMasks.length + 1)
      (if firstDone then (docID + 1) % MOD32 else 0)
decreasing_by
  all_goals simp_wf
  all_goals
    have h := List.sizeOf_lt_of_mem c.2
    omega

/-- prepare (matchtree.go lines 133-188), one case per node kind. -/
def prepare (d : ℕ) : MatchTree → MatchTree
  | MatchTree.docNode docs _ =>
    let docs2 := docs.dropWhile (fun x => x < d)
    let cur := docs2.takeWhile (fun x => x = d)
    MatchTree.docNode (docs2.drop cur.length) cur
  | MatchTree.bruteForce _ _ => MatchTree.bruteForce true d
  | MatchTree.andNode cs => MatchTree.andNode (cs.attach.map fun c => prepare d c.1)
  | MatchTree.orNode cs => MatchTree.orNode (cs.attach.map fun c => prepare d c.1)
  | MatchTree.notNode child => MatchTree.notNode (prepare d child)
  | MatchTree.noVisit inner => MatchTree.noVisit (prepare d inner)
  | MatchTree.substrNode cands _ _ cov =>
    let c2 := cands.dropWhile (fun x => x < d)
    let cur := c2.takeWhile (fun x => x = d)
    MatchTree.substrNode (c2.drop cur.length) cur false cov
  | MatchTree.regexNode _ _ _ _ => MatchTree.regexNode false 0 true d
  | MatchTree.branchNode fm mask _ _ => MatchTree.branchNode fm mask true d
decreasing_by
  all_goals simp_wf
  all_goals
    have h := List.sizeOf_lt_of_mem c.2
    omega

/-! ## Regex distillation (query/regexp.go) -/

/-- The UTF-8 length in bytes of one rune. -/
def utf8Len (r : ℕ) : ℕ :=
  if r < 128 then 1 else if r < 2048 then 2 else if r < 65536 then 3 else 4

/-- The UTF-8 encoding of one rune (valid, non-surrogate code points; the
runes of a parsed pattern are valid). -/
def utf8Encode (r : ℕ) : List ℕ :=
  if r < 128 then [r]
  else if r < 2048 then [192 + r / 64, 128 + r % 64]
  else if r < 65536 then [224 + r / 4096, 128 + r / 64 % 64, 128 + r % 64]
  else [240 + r / 262144, 128 + r / 4096 % 64, 128 + r / 64 % 64, 128 + r % 64]

/-- Go string(r.Rune): the UTF-8 bytes of the rune sequence; len(s) in the
source is the length of this byte list. -/
def strBytes (runes : List ℕ) : List ℕ := (runes.map utf8Encode).flatten

/-- regexp/syntax.Regexp rendered as a sum type: one constructor per Op the
distiller distinguishes (OpLiteral, OpCapture, OpPlus, OpRepeat with Min/Max,
OpConcat, OpAlternate) and one per remaining Op, which the distiller treats
uniformly. -/
inductive Rx
  | lit (runes : List ℕ)
  | cap (sub : Rx)
  | plus (sub : Rx)
  | star (sub : Rx)
  | quest (sub : Rx)
  | rep (min max : ℤ) (sub : Rx)
  | cat (subs : List Rx)
  | alt (subs : List Rx)
  | charCls (runes : List ℕ)
  | anyChar
  | anyCharNotNL
  | beginLine
  | endLine
  | beginText
  | endText
  | wordBoundary
  | noWordBoundary
  | emptyStr
  | noMatch

/-- Modelled from the spec: the query sum type Q (query/query.go is not
under src/); only the variants the distiller constructs are needed: And, Or,
Const, Substring{Pattern}. -/
inductive Q
  | and (children : List Q)
  | or (children : List Q)
  | const (value : Bool)
  | substring (pattern : List ℕ)

/-- regexpToQueryRecursive (query/regexp.go lines 199-233).  A literal at
least minTextSize bytes long becomes a Substring; Capture/Plus and Repeat
with Min >= 1 recurse into the sub-expression; Concat and Alternate become
And/Or of the recursively distilled children (the recursion never yields Go
nil, so no child is dropped); every other operator falls through to
Const{true}. -/
def regexpToQueryRecursive (minTextSize : ℕ) : Rx → Q
  | Rx.lit runes =>
    if minTextSize ≤ (strBytes runes).length then Q.substring (strBytes runes) else Q.const true
  | Rx.cap sub => regexpToQueryRecursive minTextSize sub
  | Rx.plus sub => regexpToQueryRecursive minTextSize sub
  | Rx.rep mn _ sub =>
    if 1 ≤ mn then regexpToQueryRecursive minTextSize sub else Q.const true
  | Rx.cat subs => Q.and (subs.attach.map fun s => regexpToQueryRecursive minTextSize s.1)
  | Rx.alt subs => Q.or (subs.attach.map fun s => regexpToQueryRecursive minTextSize s.1)
  | Rx.star _ => Q.const true
  | Rx.quest _ => Q.const true
  | Rx.charCls _ => Q.const true
  | Rx.anyChar => Q.const true
  | Rx.anyCharNotNL => Q.const true
  | Rx.beginLine => Q.const true
  | Rx.endLine => Q.const true
  | Rx.beginText => Q.const true
  | Rx.endText => Q.const true
  | Rx.wordBoundary => Q.const true
  | Rx.noWordBoundary => Q.const true
  | Rx.emptyStr => Q.const true
  | Rx.noMatch => Q.const true
decreasing_by
  all_goals simp_wf
  all_goals
    have h := List.sizeOf_lt_of_mem s.2
    omega

/-- pat occurs as a contiguous byte substring of doc. -/
def occursIn (pat doc : List ℕ) : Prop := ∃ pre post, doc = pre ++ pat ++ post

/-- Satisfaction of a distilled query by a document's bytes: And is
conjunction over children, Or disjunction, Const its value, Substring
containment. -/
inductive QHolds : Q → List ℕ → Prop
  | and (qs : List Q) (doc : List ℕ) : (∀ q ∈ qs, QHolds q doc) → QHolds (Q.and qs) doc
  | or (qs : List Q) (doc : List ℕ) (q : Q) : q ∈ qs → QHolds q doc → QHolds (Q.or qs) doc
  | const (doc : List ℕ) : QHolds (Q.const true) doc
  | substring (pat doc : List ℕ) : occursIn pat doc → QHolds (Q.substring pat) doc

/-- Rune r lies in one of the inclusive rune ranges of a character class
(ranges are consecutive pairs of the rune list). -/
def inCharCls (runes : List ℕ) (r : ℕ) : Prop :=
  ∃ k, 2 * k + 1 < runes.length ∧ runes.getD (2 * k) 0 ≤ r ∧ r ≤ runes.getD (2 * k + 1) 0

/-- Which byte strings a regular expression can match.  Anchors and
word-boundary operators are modelled as matching the empty string
unconditionally, an over-approximation of their contextual behavior; this
is sound for the superset theorem because those operators distill to
Const{true}. -/
inductive RMatch : Rx → List ℕ → Prop
  | lit (runes : List ℕ) : RMatch (Rx.lit runes) (strBytes runes)
  | cap {s w} : RMatch s w → RMatch (Rx.cap s) w
  | plusOne {s w} : RMatch s w → RMatch (Rx.plus s) w
  | plusCons {s w1 w2} : RMatch s w1 → RMatch (Rx.plus s) w2 → RMatch (Rx.plus s) (w1 ++ w2)
  | starNil (s : Rx) : RMatch (Rx.star s) []
  | starCons {s w1 w2} : RMatch s w1 → RMatch (Rx.star s) w2 → RMatch (Rx.star s) (w1 ++ w2)
  | questNil (s : Rx) : RMatch (Rx.quest s) []
  | questOne {s w} : RMatch s w → RMatch (Rx.quest s) w
  | rep {mn mx : ℤ} {s : Rx} (ws : List (List ℕ)) :
      (∀ w ∈ ws, RMatch s w) → mn ≤ (ws.length : ℤ) → (mx < 0 ∨ (ws.length : ℤ) ≤ mx) →
      RMatch (Rx.rep mn mx s) ws.flatten
  | catNil : RMatch (Rx.cat []) []
  | catCons {s subs w1 w2} :
      RMatch s w1 → RMatch (Rx.cat subs) w2 → RMatch (Rx.cat (s :: subs)) (w1 ++ w2)
  | alt {subs s w} : s ∈ subs → RMatch s w → RMatch (Rx.alt subs) w
  | charCls {runes r} : inCharCls runes r → RMatch (Rx.charCls runes) (utf8Encode r)
  | anyChar (r : ℕ) : RMatch Rx.anyChar (utf8Encode r)
  | anyCharNotNL (r : ℕ) : r ≠ 10 → RMatch Rx.anyCharNotNL (utf8Encode r)
  | beginLine : RMatch Rx.beginLine []
  | endLine : RMatch Rx.endLine []
  | beginText : RMatch Rx.beginText []
  | endText : RMatch Rx.endText []
  | wordBoundary : RMatch Rx.wordBoundary []
  | noWordBoundary : RMatch Rx.noWordBoundary []
  | emptyStr : RMatch Rx.emptyStr []

/-! ## Helper combinators and concrete inputs for the builder claims -/

/-- The list [f 0, f 1, ..., f (n-1)]. -/
def funList {α : Type} : (ℕ → α) → ℕ → List α
  | _, 0 => []
  | f, n + 1 => f 0 :: funList (fun i => f (i + 1)) n

/-- The posting offsets that a window list contributes for one trigram t:
position i contributes `(off + i) % 2^32` when its window equals t.  This is
the specification of nsPostLoop's effect on one key. -/
def offsList : ℕ → List ℕ → ℕ → List ℕ
  | _, [], _ => []
  | off, g :: gs, t => (if g = t then [off % MOD32] else []) ++ offsList (off + 1) gs t

/-- The claim-side count of distinct trigrams a content contains: the number
of distinct 3-byte windows. -/
def distinctTrigramCount (content : List Byte) : ℕ :=
  (ngramList content).toFinset.card

/-- Folding the Go set insertion over a window list: the state of the
`trigrams` map after the whole loop body has run (without the early exit). -/
def insertAll (seen gs : List ℕ) : List ℕ := gs.foldl trigramSeen seen

/-- The count of distinct trigrams among the windows the trigram-count loop
of IndexBuilder.Add actually inspects: all windows except the final one. -/
def distinctTrigramCountScanned (content : List Byte) : ℕ :=
  ((ngramList content).dropLast).toFinset.card

/-- A 3-byte document for the posting-exactness witness. -/
def c5data : List Byte := [⟨97, by omega⟩, ⟨98, by omega⟩, ⟨99, by omega⟩]

def c5tri : ℕ := bytesToNGram ⟨97, by omega⟩ ⟨98, by omega⟩ ⟨99, by omega⟩

/-- A byte sequence all of whose 3-byte windows are pairwise distinct: even
positions carry `(i/2) % 127` (< 128), odd positions `128 + (i/2) % 128`,
so a window determines its parity and, by the Chinese remainder theorem,
its position. -/
def c4byte (i : ℕ) : Byte :=
  if i % 2 = 0 then ⟨i / 2 % 127, by omega⟩ else ⟨128 + i / 2 % 128, by omega⟩

/-- The window of c4byte starting at position i. -/
def c4window (i : ℕ) : ℕ := bytesToNGram (c4byte i) (c4byte (i + 1)) (c4byte (i + 2))

/-- 20003 bytes: 20001 windows, all distinct, so the content has 20001
distinct trigrams while the trigram-count loop (which never inspects the
final window) sees only 20000 of them. -/
def c4content : List Byte := funList c4byte 20003

def c4doc : Document := ⟨[], c4content, [], []⟩

/-- 20004 bytes: 20002 windows; the 20001 distinct ones among the first
20002 - 1 windows push the trigram-count loop over the limit. -/
def c4wideContent : List Byte := funList c4byte 20004

def c4wideDoc : Document := ⟨[], c4wideContent, [], []⟩

def b97 : Byte := ⟨97, by omega⟩

/-- The trigram "aaa". -/
def tAAA : ℕ := bytesToNGram b97 b97 b97

/-- 2^32 bytes of 'a': adding this document wraps contentEnd back to 0. -/
def c6bigDoc : Document := ⟨[], funList (fun _ => b97) 4294967296, [], []⟩

def c6smallDoc : Document := ⟨[], [b97, b97, b97], [], []⟩

/-- A small well-behaved document for the monotonicity witness. -/
def c6witnessDoc : Document := ⟨[b97], [b97, b97, b97, b97], [], []⟩

/-- 32 distinct branch names "0", "1", ..., "31". -/
def c1names : List String := (List.range 32).map (fun i => toString i)

/-- A builder on which 32 distinct branches have been registered. -/
def c1b32 : IndexBuilder := c1names.foldl AddBranch newIndexBuilder

/-- A document carrying a 33rd distinct branch name. -/
def c1doc : Document := ⟨[], [], ["32"], []⟩

/-- A document with overlapping symbol sections. -/
def c10doc : Document := ⟨[], [], [], [⟨0, 5⟩, ⟨3, 7⟩]⟩

/-- The degenerate match on an empty line: both ends sit at the line start
and line end simultaneously. -/
def c8empty : Match := ⟨[], 0, 0⟩

/-- A full-line word match ("abc", matched entirely). -/
def c8word : Match := ⟨[⟨97, by omega⟩, ⟨98, by omega⟩, ⟨99, by omega⟩], 0, 3⟩

/-- Posting lists sorted strictly ascending with every offset (plus its
window) inside the region bound. -/
def postingsBounded (P : PostingsMap) (bound : ℕ) : Prop :=
  ∀ g, List.Pairwise (· < ·) (P g) ∧ ∀ o ∈ P g, o + 3 ≤ bound

/-- The builder invariant for the posting-monotonicity claim. -/
def builderInv (b : IndexBuilder) : Prop :=
  b.contentEnd < MOD32 ∧ b.nameEnd < MOD32 ∧
    postingsBounded b.contentPostings b.contentEnd ∧
    postingsBounded b.namePostings b.nameEnd

/-! ## Shard body section order (claim C2) -/

/-- C2, counterexample.  The claim states that IndexBuilder.Write emits
unaryData as the first section of the shard body, before fileContents and
every other section.  It is false: the first statement of Write emits
fileContents, and unaryData is not the first body section. -/
theorem c2_unaryData_not_first :
    writeBodyOrder.head? ≠ some SectionTag.unaryData ∧
      writeBodyOrder.head? = some SectionTag.fileContents := by
  decide

/-- C2, amended claim: IndexBuilder.Write emits fileContents as the first
body section, and emits unaryData as the last body section, immediately
before the TOC; unaryData is also the last entry of the TOC's declared
section order. -/
theorem c2_body_order :
    writeBodyOrder.head? = some SectionTag.fileContents ∧
      writeBodyOrder.getLast? = some SectionTag.unaryData ∧
      tocSectionOrder.getLast? = some SectionTag.unaryData := by
  decide

/-! ## Error atomicity of Add (claim C10) -/

/-- C10: whenever IndexBuilder.Add returns the sections-overlap error, the
builder is returned unchanged -- files, fileNames, docSections, branchMasks,
contentEnd, nameEnd, contentPostings, namePostings and the branch map are
all identical to their values before the call (the error is raised before
any field of the builder is touched). -/
theorem c10_add_error_atomic (b : IndexBuilder) (doc : Document)
    (h : (add b doc).2 = some AddError.sectionsOverlap) : (add b doc).1 = b := by
  unfold add at h ⊢
  by_cases h1 : skipNonText doc.Content
  · simp [h1] at h
  · by_cases h2 : overlapCheck (sortDocSections doc.Symbols)
    · simp [h1, h2]
    · simp [h1, h2] at h

/-- C10, witness: a concrete Add call that returns the sections-overlap
error and leaves the fresh builder unchanged. -/
theorem c10_add_error_atomic_witness :
    (add newIndexBuilder c10doc).2 = some AddError.sectionsOverlap ∧
      (add newIndexBuilder c10doc).1 = newIndexBuilder :=
  ⟨by decide, c10_add_error_atomic newIndexBuilder c10doc (by decide)⟩

/-! ## Branch limit behavior (claim C1) -/

/-- C1: the builder does not reject a 33rd distinct branch.  After the 32
distinct branch names "0" .. "31" are registered (each assigned its own bit
2^i of the 32-bit mask), adding a document carrying the 33rd distinct branch
name "32" returns no error; the 33rd branch is silently assigned id 2^32 --
outside the 32-bit branch mask -- and the document's recorded branch mask is
uint32(2^32) = 0.  This contradicts the claim that the 33rd branch is
rejected at build time, and violates the documented invariant that every
branch mask has at least one bit set. -/
theorem c1_branch_33_not_rejected :
    c1b32.branches.length = 32 ∧
      (∀ i < 32, branchLookup c1b32.branches (toString i) = some (2 ^ i)) ∧
      (add c1b32 c1doc).2 = none ∧
      branchLookup (add c1b32 c1doc).1.branches "32" = some (2 ^ 32) ∧
      (add c1b32 c1doc).1.branches.length = 33 ∧
      (add c1b32 c1doc).1.branchMasks = [0] := by
  decide

/-! ## Result sort stability (claim C3) -/

theorem swap_head_perm :
    ∀ (t : List FileMatch) (k : ℕ) (x : FileMatch), k < t.length →
      (t.getD k ⟨0, 0⟩ :: t.set k x).Perm (x :: t) := by
  intro t
  induction t with
  | nil => intro k x hk; simp at hk
  | cons y s ih =>
    intro k x hk
    cases k with
    | zero => simpa using List.Perm.swap x y s
    | succ k =>
      have hk2 : k < s.length := by simpa using hk
      have e : (y :: s).set (k + 1) x = y :: s.set k x := by simp
      rw [e]
      exact (List.Perm.swap y _ _).trans (((ih k x hk2).cons y).trans (List.Perm.swap x y s))

theorem swapAt_perm :
    ∀ (l : List FileMatch) (i j : ℕ), i < l.length → j < l.length →
      (swapAt l i j).Perm l := by
  intro l
  induction l with
  | nil => intro i j hi; simp at hi
  | cons a t ih =>
    intro i j hi hj
    cases i with
    | zero =>
      cases j with
      | zero => simp [swapAt]
      | succ j =>
        have hj2 : j < t.length := by simpa using hj
        have : swapAt (a :: t) 0 (j + 1) = t.getD j ⟨0, 0⟩ :: t.set j a := by
          simp [swapAt]
        rw [this]
        exact swap_head_perm t j a hj2
    | succ i =>
      cases j with
      | zero =>
        have hi2 : i < t.length := by simpa using hi
        have : swapAt (a :: t) (i + 1) 0 = t.getD i ⟨0, 0⟩ :: t.set i a := by
          simp [swapAt]
        rw [this]
        exact swap_head_perm t i a hi2
      | succ j =>
        have hi2 : i < t.length := by simpa using hi
        have hj2 : j < t.length := by simpa using hj
        have : swapAt (a :: t) (i + 1) (j + 1) = a :: swapAt t i j := by
          simp [swapAt]
        rw [this]
        exact (ih i j hi2 hj2).cons a

theorem shellLoop_perm : ∀ (fuel : ℕ) (l : List FileMatch) (i : ℕ),
    (shellLoop fuel l i).Perm l := by
  intro fuel
  induction fuel with
  | zero => intro l i; simp [shellLoop]
  | succ fuel ih =>
    intro l i
    rw [shellLoop]
    by_cases h : i < l.length
    · simp only [if_pos h]
      refine (ih _ (i + 1)).trans ?_
      split
      · exact swapAt_perm l (i - 6) i (lt_of_le_of_lt (Nat.sub_le i 6) h) h
      · exact List.Perm.refl l
    · simp [h]

/-- C3, counterexample.  The claim states that the aggregated file list is
sorted by score descending AND that the sort is stable on ties.  Stability
is false: sort.Sort is not stable, and on this 7-element aggregate (where
Go sort.Sort is exactly the embedded gap-6 Shell pass plus insertion sort)
the two files tied at score 1 come out in reversed relative order. -/
theorem c3_sort_not_stable :
    sortFilesByScore c3input =
        [⟨6, 2⟩, ⟨1, 1⟩, ⟨0, 1⟩, ⟨2, 0⟩, ⟨3, 0⟩, ⟨4, 0⟩, ⟨5, 0⟩] ∧
      ¬ stableOnTies c3input (sortFilesByScore c3input) := by
  constructor
  · decide
  · intro h
    have h1 := h ⟨0, 1⟩ ⟨1, 1⟩ (by decide) (by decide) (by decide) (by decide)
    revert h1
    decide

/-- C3, amended claim: the aggregated file list is sorted by score in
descending order (sortFilesByScore returns a permutation of its input that
is sorted under the descending-score relation scoreGE); the sort is NOT
guaranteed stable on ties -- files with equal score may be reordered. -/
theorem c3_sorted_descending (ms : List FileMatch) :
    (sortFilesByScore ms).Perm ms ∧ List.Sorted scoreGE (sortFilesByScore ms) := by
  constructor
  · exact (List.perm_insertionSort scoreGE _).trans (shellLoop_perm ms.length ms 6)
  · exact List.sorted_insertionSort scoreGE _

/-! ## Sliding-window infrastructure (claims C4, C5, C6) -/

/-- Induction along the sliding-window recursion shared by ngramList and
nsPostLoop. -/
theorem slideRec {motive : List Byte → Prop} (h0 : motive []) (h1 : ∀ a, motive [a])
    (h2 : ∀ a b, motive [a, b])
    (hcons : ∀ b0 b1 b2 rest, motive (b1 :: b2 :: rest) → motive (b0 :: b1 :: b2 :: rest)) :
    ∀ data, motive data := by
  have key : ∀ n data, List.length data ≤ n → motive data := by
    intro n
    induction n with
    | zero =>
      intro data hd
      have : data = [] := List.eq_nil_of_length_eq_zero (Nat.le_zero.mp hd)
      rw [this]; exact h0
    | succ n ih =>
      intro data hd
      match data with
      | [] => exact h0
      | [a] => exact h1 a
      | [a, b] => exact h2 a b
      | b0 :: b1 :: b2 :: rest =>
        refine hcons b0 b1 b2 rest (ih (b1 :: b2 :: rest) ?_)
        simp only [List.length_cons] at hd ⊢
        omega
  intro data
  exact key data.length data le_rfl

theorem funList_length {α : Type} : ∀ (n : ℕ) (f : ℕ → α), (funList f n).length = n := by
  intro n
  induction n with
  | zero => intro f; rfl
  | succ n ih => intro f; simpa [funList] using ih (fun i => f (i + 1))

theorem mem_funList {α : Type} :
    ∀ (n : ℕ) (f : ℕ → α) (x : α), x ∈ funList f n ↔ ∃ i, i < n ∧ f i = x := by
  intro n
  induction n with
  | zero => intro f x; simp [funList]
  | succ n ih =>
    intro f x
    simp only [funList, List.mem_cons, ih (fun i => f (i + 1))]
    constructor
    · rintro (h | ⟨i, hi, hf⟩)
      · exact ⟨0, by omega, h.symm⟩
      · exact ⟨i + 1, by omega, hf⟩
    · rintro ⟨i, hi, hf⟩
      cases i with
      | zero => exact Or.inl hf.symm
      | succ i => exact Or.inr ⟨i, by omega, hf⟩

theorem funList_congr {α : Type} :
    ∀ (n : ℕ) (f g : ℕ → α), (∀ i, i < n → f i = g i) → funList f n = funList g n := by
  intro n
  induction n with
  | zero => intro f g _; rfl
  | succ n ih =>
    intro f g h
    simp only [funList]
    refine congrArg₂ _ (h 0 (by omega)) (ih _ _ ?_)
    intro i hi
    exact h (i + 1) (by omega)

theorem funList_nodup {α : Type} :
    ∀ (n : ℕ) (f : ℕ → α), (∀ i j, i < j → j < n → f i ≠ f j) → (funList f n).Nodup := by
  intro n
  induction n with
  | zero => intro f _; simp [funList]
  | succ n ih =>
    intro f hinj
    rw [funList, List.nodup_cons]
    constructor
    · intro hmem
      rcases (mem_funList n (fun i => f (i + 1)) (f 0)).mp hmem with ⟨i, hi, hf⟩
      exact hinj 0 (i + 1) (by omega) (by omega) hf.symm
    · exact ih _ (fun i j hij hj => hinj (i + 1) (j + 1) (by omega) (by omega))

theorem funList_dropLast {α : Type} :
    ∀ (n : ℕ) (f : ℕ → α), (funList f (n + 1)).dropLast = funList f n := by
  intro n
  induction n with
  | zero => intro f; rfl
  | succ n ih =>
    intro f
    show (f 0 :: f 1 :: funList (fun i => f (i + 2)) n).dropLast
      = f 0 :: funList (fun i => f (i + 1)) n
    rw [List.dropLast_cons₂]
    exact congrArg _ (ih (fun i => f (i + 1)))

theorem ngramList_cons (b0 b1 b2 : Byte) (rest : List Byte) :
    ngramList (b0 :: b1 :: b2 :: rest) = bytesToNGram b0 b1 b2 :: ngramList (b1 :: b2 :: rest) :=
  rfl

theorem ngramList_length : ∀ data : List Byte, (ngramList data).length = data.length - 2 := by
  refine slideRec rfl (fun a => rfl) (fun a b => rfl) ?_
  intro b0 b1 b2 rest ih
  rw [ngramList_cons, List.length_cons]
  simp only [List.length_cons] at ih ⊢
  omega

theorem ngramList_getD :
    ∀ data : List Byte, ∀ i, i + 3 ≤ data.length →
      (ngramList data).getD i 0 =
        bytesToNGram (data.getD i ⟨0, by omega⟩) (data.getD (i + 1) ⟨0, by omega⟩)
          (data.getD (i + 2) ⟨0, by omega⟩) := by
  refine slideRec ?_ ?_ ?_ ?_
  · intro i hi; simp at hi
  · intro a i hi; simp at hi
  · intro a b i hi
    simp only [List.length_cons, List.length_nil] at hi
    omega
  · intro b0 b1 b2 rest ih i hi
    cases i with
    | zero => rfl
    | succ i =>
      rw [ngramList_cons]
      have hlen : i + 3 ≤ (b1 :: b2 :: rest).length := by
        simp only [List.length_cons] at hi ⊢
        omega
      simpa using ih i hlen

theorem ngramList_funList :
    ∀ (n : ℕ) (f : ℕ → Byte),
      ngramList (funList f n) =
        funList (fun i => bytesToNGram (f i) (f (i + 1)) (f (i + 2))) (n - 2) := by
  intro n
  induction n using Nat.strong_induction_on with
  | _ n ih =>
    match n with
    | 0 => intro f; rfl
    | 1 => intro f; rfl
    | 2 => intro f; rfl
    | m + 3 =>
      intro f
      show ngramList (f 0 :: f 1 :: f 2 :: funList (fun i => f (i + 3)) m)
        = funList (fun i => bytesToNGram (f i) (f (i + 1)) (f (i + 2))) (m + 3 - 2)
      rw [ngramList_cons]
      have e2 : (f 1 :: f 2 :: funList (fun i => f (i + 3)) m)
          = funList (fun i => f (i + 1)) (m + 2) := rfl
      rw [e2, ih (m + 2) (by omega) (fun i => f (i + 1))]
      have e3 : m + 2 - 2 = m := by omega
      have e4 : m + 3 - 2 = m + 1 := by omega
      rw [e3, e4]
      rfl

theorem nsPostLoop_eq :
    ∀ data : List Byte, ∀ (P : PostingsMap) (off g : ℕ),
      nsPostLoop P off data g = P g ++ offsList off (ngramList data) g := by
  refine slideRec ?_ ?_ ?_ ?_
  · intro P off g; simp [nsPostLoop, ngramList, offsList]
  · intro a P off g; simp [nsPostLoop, ngramList, offsList]
  · intro a b P off g; simp [nsPostLoop, ngramList, offsList]
  · intro b0 b1 b2 rest ih P off g
    show nsPostLoop (postUpdate P (bytesToNGram b0 b1 b2) (off % MOD32)) (off + 1)
        (b1 :: b2 :: rest) g
      = P g ++ offsList off (bytesToNGram b0 b1 b2 :: ngramList (b1 :: b2 :: rest)) g
    rw [ih]
    show postUpdate P (bytesToNGram b0 b1 b2) (off % MOD32) g
        ++ offsList (off + 1) (ngramList (b1 :: b2 :: rest)) g
      = P g ++ ((if bytesToNGram b0 b1 b2 = g then [off % MOD32] else [])
        ++ offsList (off + 1) (ngramList (b1 :: b2 :: rest)) g)
    unfold postUpdate
    by_cases h : g = bytesToNGram b0 b1 b2
    · rw [if_pos h, if_pos h.symm, List.append_assoc]
    · rw [if_neg h, if_neg (fun e => h e.symm), List.nil_append]

theorem offsList_mem_bounds :
    ∀ (gs : List ℕ) (off t o : ℕ), off + gs.length ≤ MOD32 →
      o ∈ offsList off gs t → off ≤ o ∧ o < off + gs.length := by
  intro gs
  induction gs with
  | nil => intro off t o _ h; simp [offsList] at h
  | cons w gs ih =>
    intro off t o hb h
    have hoff : off < MOD32 := by
      simp only [List.length_cons] at hb
      omega
    rw [offsList, List.mem_append] at h
    rcases h with h | h
    · have : o = off := by
        rcases Decidable.em (w = t) with hw | hw
        · rw [if_pos hw] at h
          simpa [Nat.mod_eq_of_lt hoff] using h
        · rw [if_neg hw] at h
          simp at h
      simp only [List.length_cons]
      omega
    · have := ih (off + 1) t o (by simp only [List.length_cons] at hb; omega) h
      simp only [List.length_cons]
      omega

theorem offsList_pairwise :
    ∀ (gs : List ℕ) (off t : ℕ), off + gs.length ≤ MOD32 →
      List.Pairwise (· < ·) (offsList off gs t) := by
  intro gs
  induction gs with
  | nil => intro off t _; simp [offsList]
  | cons w gs ih =>
    intro off t hb
    have hoff : off < MOD32 := by
      simp only [List.length_cons] at hb
      omega
    have htail : List.Pairwise (· < ·) (offsList (off + 1) gs t) :=
      ih (off + 1) t (by simp only [List.length_cons] at hb; omega)
    rw [offsList]
    rcases Decidable.em (w = t) with hw | hw
    · rw [if_pos hw]
      rw [List.singleton_append, List.pairwise_cons]
      refine ⟨?_, htail⟩
      intro o ho
      have := offsList_mem_bounds gs (off + 1) t o
        (by simp only [List.length_cons] at hb; omega) ho
      rw [Nat.mod_eq_of_lt hoff]
      omega
    · rw [if_neg hw, List.nil_append]
      exact htail

theorem offsList_mem_iff :
    ∀ (gs : List ℕ) (off t o : ℕ), off + gs.length ≤ MOD32 →
      (o ∈ offsList off gs t ↔ ∃ i, i < gs.length ∧ gs.getD i 0 = t ∧ o = off + i) := by
  intro gs
  induction gs with
  | nil => intro off t o _; simp [offsList]
  | cons w gs ih =>
    intro off t o hb
    have hoff : off < MOD32 := by
      simp only [List.length_cons] at hb
      omega
    rw [offsList, List.mem_append]
    rw [ih (off + 1) t o (by simp only [List.length_cons] at hb; omega)]
    constructor
    · rintro (h | ⟨i, hi, hget, ho⟩)
      · rcases Decidable.em (w = t) with hw | hw
        · rw [if_pos hw] at h
          rw [Nat.mod_eq_of_lt hoff] at h
          simp at h
          exact ⟨0, by simp, by simpa using hw, by omega⟩
        · rw [if_neg hw] at h
          simp at h
      · exact ⟨i + 1, by simp only [List.length_cons]; omega, by simpa using hget, by omega⟩
    · rintro ⟨i, hi, hget, ho⟩
      cases i with
      | zero =>
        left
        have hw : w = t := by simpa using hget
        rw [if_pos hw, Nat.mod_eq_of_lt hoff]
        simp
        omega
      | succ i =>
        right
        refine ⟨i, by simp only [List.length_cons] at hi; omega, by simpa using hget, by omega⟩

theorem offsList_const :
    ∀ (n off t : ℕ),
      offsList off (funList (fun _ => t) n) t = funList (fun i => (off + i) % MOD32) n := by
  intro n
  induction n with
  | zero => intro off t; rfl
  | succ n ih =>
    intro off t
    show (if t = t then [off % MOD32] else []) ++ offsList (off + 1) (funList (fun _ => t) n) t
      = (off + 0) % MOD32 :: funList (fun i => (off + (i + 1)) % MOD32) n
    rw [if_pos rfl, ih (off + 1) t, List.singleton_append]
    refine congrArg₂ _ (by rw [Nat.add_zero]) ?_
    exact funList_congr n _ _ (fun i _ => by
      have : off + 1 + i = off + (i + 1) := by omega
      rw [this])

/-! ## The trigram-count loop (claim C4) -/

theorem trigramSeen_length_ge (seen : List ℕ) (g : ℕ) :
    seen.length ≤ (trigramSeen seen g).length := by
  unfold trigramSeen
  split
  · exact le_rfl
  · simp

theorem insertAll_length_ge :
    ∀ (gs seen : List ℕ), seen.length ≤ (insertAll seen gs).length := by
  intro gs
  induction gs with
  | nil => intro seen; exact le_rfl
  | cons g gs ih =>
    intro seen
    exact le_trans (trigramSeen_length_ge seen g) (ih (trigramSeen seen g))

theorem tooManyLoop_iff :
    ∀ (gs seen : List ℕ), seen.length ≤ maxTrigramCount →
      (tooManyLoop seen gs = true ↔ maxTrigramCount < (insertAll seen gs).length) := by
  intro gs
  induction gs with
  | nil =>
    intro seen hs
    simp only [tooManyLoop, insertAll, List.foldl_nil]
    constructor
    · intro h; cases h
    · intro h; omega
  | cons g gs ih =>
    intro seen hs
    rw [tooManyLoop]
    have hins : insertAll seen (g :: gs) = insertAll (trigramSeen seen g) gs := rfl
    by_cases h : (trigramSeen seen g).length > maxTrigramCount
    · rw [if_pos h, hins]
      have := insertAll_length_ge gs (trigramSeen seen g)
      constructor
      · intro _; omega
      · intro _; rfl
    · rw [if_neg h, hins]
      exact ih (trigramSeen seen g) (by omega)

theorem trigramSeen_toFinset (seen : List ℕ) (g : ℕ) :
    (trigramSeen seen g).toFinset = insert g seen.toFinset := by
  unfold trigramSeen
  split
  · next h => exact (Finset.insert_eq_self.mpr (List.mem_toFinset.mpr h)).symm
  · rw [List.toFinset_append]
    ext x
    simp
    tauto

theorem trigramSeen_nodup (seen : List ℕ) (g : ℕ) (h : seen.Nodup) :
    (trigramSeen seen g).Nodup := by
  unfold trigramSeen
  split
  · exact h
  · next hmem => simpa [List.nodup_append] using ⟨h, hmem⟩

theorem insertAll_toFinset :
    ∀ (gs seen : List ℕ), (insertAll seen gs).toFinset = seen.toFinset ∪ gs.toFinset := by
  intro gs
  induction gs with
  | nil => intro seen; simp [insertAll]
  | cons g gs ih =>
    intro seen
    have hins : insertAll seen (g :: gs) = insertAll (trigramSeen seen g) gs := rfl
    rw [hins, ih (trigramSeen seen g), trigramSeen_toFinset]
    ext x
    simp

theorem insertAll_nodup :
    ∀ (gs seen : List ℕ), seen.Nodup → (insertAll seen gs).Nodup := by
  intro gs
  induction gs with
  | nil => intro seen h; exact h
  | cons g gs ih =>
    intro seen h
    exact ih (trigramSeen seen g) (trigramSeen_nodup seen g h)

theorem insertAll_nil_length (gs : List ℕ) :
    (insertAll [] gs).length = gs.toFinset.card := by
  have h1 : (insertAll [] gs).toFinset.card = (insertAll [] gs).length :=
    List.toFinset_card_of_nodup (insertAll_nodup gs [] List.nodup_nil)
  rw [← h1, insertAll_toFinset]
  simp

/-- The skip decision of IndexBuilder.Add, characterized: the document is
treated as non-text exactly when the distinct trigrams among the inspected
windows (all but the final one) exceed maxTrigramCount. -/
theorem skipNonText_iff (content : List Byte) :
    skipNonText content = true ↔ maxTrigramCount < distinctTrigramCountScanned content := by
  unfold skipNonText distinctTrigramCountScanned
  rw [tooManyLoop_iff _ [] (by simp [maxTrigramCount]), insertAll_nil_length]

theorem c4byte_val_even (k : ℕ) : (c4byte (2 * k)).val = k % 127 := by
  have h : 2 * k % 2 = 0 := by omega
  simp only [c4byte, h, if_pos]
  show 2 * k / 2 % 127 = k % 127
  congr 1
  omega

theorem c4byte_val_odd (k : ℕ) : (c4byte (2 * k + 1)).val = 128 + k % 128 := by
  have h : ¬ (2 * k + 1) % 2 = 0 := by omega
  simp only [c4byte, if_neg h]
  show 128 + (2 * k + 1) / 2 % 128 = 128 + k % 128
  congr 2
  omega

theorem crt_127_128 {k k' : ℕ} (h127 : k % 127 = k' % 127) (h128 : k % 128 = k' % 128)
    (hk : k < 16256) (hk' : k' < 16256) : k = k' := by
  have hco : Nat.Coprime 127 128 := by decide
  have h1 : k ≡ k' [MOD 127] := h127
  have h2 : k ≡ k' [MOD 128] := h128
  have h3 : k ≡ k' [MOD 127 * 128] := (Nat.modEq_and_modEq_iff_modEq_mul hco).mp ⟨h1, h2⟩
  have h4 : k % 16256 = k' % 16256 := h3
  rwa [Nat.mod_eq_of_lt hk, Nat.mod_eq_of_lt hk'] at h4

/-- All windows of c4byte at positions below 20002 are pairwise distinct. -/
theorem c4window_inj : ∀ i j, i < j → j < 20002 → c4window i ≠ c4window j := by
  intro i j hij hj heq
  have e012 : (c4byte i).val = (c4byte j).val ∧
      (c4byte (i + 1)).val = (c4byte (j + 1)).val ∧
      (c4byte (i + 2)).val = (c4byte (j + 2)).val := by
    have l0 := (c4byte i).isLt
    have l1 := (c4byte (i + 1)).isLt
    have l2 := (c4byte (i + 2)).isLt
    have l3 := (c4byte j).isLt
    have l4 := (c4byte (j + 1)).isLt
    have l5 := (c4byte (j + 2)).isLt
    unfold c4window bytesToNGram at heq
    omega
  obtain ⟨e0, e1, e2⟩ := e012
  have hi2 : i % 2 = 0 ∨ i % 2 = 1 := Nat.mod_two_eq_zero_or_one i
  have hj2 : j % 2 = 0 ∨ j % 2 = 1 := Nat.mod_two_eq_zero_or_one j
  rcases hi2 with hi2 | hi2 <;> rcases hj2 with hj2 | hj2
  · -- both even: i = 2a, j = 2b
    obtain ⟨a, ha⟩ : ∃ a, i = 2 * a := ⟨i / 2, by omega⟩
    obtain ⟨b, hb⟩ : ∃ b, j = 2 * b := ⟨j / 2, by omega⟩
    subst ha hb
    rw [c4byte_val_even, c4byte_val_even] at e0
    rw [show 2 * a + 1 = 2 * a + 1 from rfl] at e1
    rw [c4byte_val_odd, c4byte_val_odd] at e1
    have hab : a = b := crt_127_128 e0 (by omega) (by omega) (by omega)
    omega
  · -- i even, j odd: first bytes straddle 128
    obtain ⟨a, ha⟩ : ∃ a, i = 2 * a := ⟨i / 2, by omega⟩
    obtain ⟨b, hb⟩ : ∃ b, j = 2 * b + 1 := ⟨j / 2, by omega⟩
    subst ha hb
    rw [c4byte_val_even, c4byte_val_odd] at e0
    omega
  · -- i odd, j even
    obtain ⟨a, ha⟩ : ∃ a, i = 2 * a + 1 := ⟨i / 2, by omega⟩
    obtain ⟨b, hb⟩ : ∃ b, j = 2 * b := ⟨j / 2, by omega⟩
    subst ha hb
    rw [c4byte_val_odd, c4byte_val_even] at e0
    omega
  · -- both odd: i = 2a+1, j = 2b+1
    obtain ⟨a, ha⟩ : ∃ a, i = 2 * a + 1 := ⟨i / 2, by omega⟩
    obtain ⟨b, hb⟩ : ∃ b, j = 2 * b + 1 := ⟨j / 2, by omega⟩
    subst ha hb
    rw [c4byte_val_odd, c4byte_val_odd] at e0
    have e1' : (c4byte (2 * (a + 1))).val = (c4byte (2 * (b + 1))).val := by
      have : 2 * a + 1 + 1 = 2 * (a + 1) := by omega
      rw [this] at e1
      have : 2 * b + 1 + 1 = 2 * (b + 1) := by omega
      rwa [this] at e1
    rw [c4byte_val_even, c4byte_val_even] at e1'
    have h127 : a % 127 = b % 127 :=
      Nat.ModEq.add_right_cancel' 1 (show a + 1 ≡ b + 1 [MOD 127] from e1')
    have hab : a = b := crt_127_128 h127 (by omega) (by omega) (by omega)
    omega

theorem ngramList_c4content : ngramList c4content = funList c4window 20001 := by
  unfold c4content
  rw [ngramList_funList]
  rfl

theorem ngramList_c4wideContent : ngramList c4wideContent = funList c4window 20002 := by
  unfold c4wideContent
  rw [ngramList_funList]
  rfl

theorem c4content_card : distinctTrigramCount c4content = 20001 := by
  unfold distinctTrigramCount
  rw [ngramList_c4content,
    List.toFinset_card_of_nodup
      (funList_nodup _ _ (fun i j hij hj => c4window_inj i j hij (by omega)))]
  exact funList_length _ _

theorem c4content_scanned_le : distinctTrigramCountScanned c4content ≤ 20000 := by
  unfold distinctTrigramCountScanned
  rw [ngramList_c4content, show (20001 : ℕ) = 20000 + 1 from rfl, funList_dropLast]
  calc (funList c4window 20000).toFinset.card ≤ (funList c4window 20000).length :=
        List.toFinset_card_le _
    _ = 20000 := funList_length _ _

theorem c4wide_scanned : distinctTrigramCountScanned c4wideContent = 20001 := by
  unfold distinctTrigramCountScanned
  rw [ngramList_c4wideContent, show (20002 : ℕ) = 20001 + 1 from rfl, funList_dropLast,
    List.toFinset_card_of_nodup
      (funList_nodup _ _ (fun i j hij hj => c4window_inj i j hij (by omega)))]
  exact funList_length _ _

/-- C4, counterexample.  The claim states that every document containing
more than 20000 distinct trigrams is skipped.  It is false: the
trigram-count loop never inspects the final window, so this document with
20001 distinct trigrams (the 20001st occurring only in its final window) is
NOT skipped -- Add returns no error and appends the file. -/
theorem c4_large_doc_not_skipped :
    maxTrigramCount < distinctTrigramCount c4content ∧
      (add newIndexBuilder c4doc).2 = none ∧
      (add newIndexBuilder c4doc).1.files ≠ [] := by
  have hskip : skipNonText c4content = false := by
    rcases h : skipNonText c4content with _ | _
    · rfl
    · have h1 := (skipNonText_iff c4content).mp h
      have h2 := c4content_scanned_le
      unfold maxTrigramCount at h1
      omega
  have hov : overlapCheck (sortDocSections ([] : List DocumentSection)) = false := rfl
  refine ⟨by rw [c4content_card]; norm_num [maxTrigramCount], ?_, ?_⟩
  · show (add newIndexBuilder c4doc).2 = none
    unfold add
    simp [c4doc, hskip, hov]
  · show (add newIndexBuilder c4doc).1.files ≠ []
    unfold add
    simp [c4doc, hskip, hov, newIndexBuilder]

/-- C4, amended claim: for every document whose content contains more than
20000 (maxTrigramCount) distinct trigrams among its inspected windows --
all 3-byte windows except the final one -- IndexBuilder.Add treats it as
non-text and skips it: it returns no error and leaves the builder completely
unchanged (no file, file name, document section, branch mask, or posting is
appended). -/
theorem c4_skip_on_scanned_trigrams (b : IndexBuilder) (doc : Document)
    (h : maxTrigramCount < distinctTrigramCountScanned doc.Content) :
    add b doc = (b, none) := by
  have hskip : skipNonText doc.Content = true := (skipNonText_iff _).mpr h
  unfold add
  simp [hskip]

/-- C4, witness: a concrete document with 20001 distinct trigrams among its
inspected windows is skipped with no error and no state change. -/
theorem c4_skip_on_scanned_trigrams_witness :
    maxTrigramCount < distinctTrigramCountScanned c4wideDoc.Content ∧
      add newIndexBuilder c4wideDoc = (newIndexBuilder, none) := by
  have h : maxTrigramCount < distinctTrigramCountScanned c4wideDoc.Content := by
    show maxTrigramCount < distinctTrigramCountScanned c4wideContent
    rw [c4wide_scanned]
    norm_num [maxTrigramCount]
  exact ⟨h, c4_skip_on_scanned_trigrams newIndexBuilder c4wideDoc h⟩

/-! ## Content trigram posting exactness (claim C5) -/

/-- C5: for a document whose stored bytes start at global offset S (with the
32-bit offset space not exhausted), newSearchableString appends to the
posting list of trigram t exactly the offsets S+i at which the stored bytes
[i, i+3) equal t: (1) the new postings map extends the old one by exactly
the offsets of offsList; (2) for every in-range i, S+i is among the added
entries iff the window at i is t; (3) every added entry is S+i for some
in-range i; (4) a document of exactly 3 bytes contributes exactly one entry
(at S, for its unique window); (5) a document of 2 bytes contributes none. -/
theorem c5_posting_exact (data : List Byte) (S : ℕ) (P : PostingsMap) (t : ℕ)
    (hS : S + data.length ≤ MOD32) :
    ((newSearchableString data S P).2 t = P t ++ offsList S (ngramList data) t) ∧
      (∀ i, i + 3 ≤ data.length →
        ((S + i) ∈ offsList S (ngramList data) t ↔
          bytesToNGram (data.getD i ⟨0, by omega⟩) (data.getD (i + 1) ⟨0, by omega⟩)
            (data.getD (i + 2) ⟨0, by omega⟩) = t)) ∧
      (∀ o ∈ offsList S (ngramList data) t, ∃ i, i + 3 ≤ data.length ∧ o = S + i) ∧
      (data.length = 3 → offsList S (ngramList data) t =
        if bytesToNGram (data.getD 0 ⟨0, by omega⟩) (data.getD 1 ⟨0, by omega⟩)
            (data.getD 2 ⟨0, by omega⟩) = t then [S] else []) ∧
      (data.length = 2 → offsList S (ngramList data) t = []) := by
  have hgsb : S + (ngramList data).length ≤ MOD32 := by
    rw [ngramList_length]
    omega
  refine ⟨nsPostLoop_eq data P S t, ?_, ?_, ?_, ?_⟩
  · intro i hi
    rw [offsList_mem_iff _ _ _ _ hgsb]
    constructor
    · rintro ⟨i2, hi2, hget, ho⟩
      have hii : i2 = i := by omega
      rw [hii] at hget
      rw [ngramList_getD data i hi] at hget
      exact hget
    · intro hw
      refine ⟨i, ?_, ?_, rfl⟩
      · rw [ngramList_length]
        omega
      · rw [ngramList_getD data i hi]
        exact hw
  · intro o ho
    obtain ⟨i, hi, _, ho⟩ := (offsList_mem_iff _ _ _ _ hgsb).mp ho
    refine ⟨i, ?_, ho⟩
    rw [ngramList_length] at hi
    omega
  · intro h3
    obtain ⟨a, b, c, habc⟩ := List.length_eq_three.mp h3
    subst habc
    have hng : ngramList [a, b, c] = [bytesToNGram a b c] := rfl
    rw [hng]
    have hS3 : S < MOD32 := by
      simp only [List.length_cons, List.length_nil] at hS
      omega
    show (if bytesToNGram a b c = t then [S % MOD32] else []) ++ offsList (S + 1) [] t = _
    rw [Nat.mod_eq_of_lt hS3]
    simp [offsList, List.getD]
  · intro h2
    obtain ⟨a, b, habc⟩ := List.length_eq_two.mp h2
    subst habc
    rfl

/-- C5, witness: a 3-byte document stored at offset 5 adds exactly the
posting entry 5 for its trigram. -/
theorem c5_posting_exact_witness :
    5 + c5data.length ≤ MOD32 ∧
      (newSearchableString c5data 5 (fun _ => [])).2 c5tri = [5] := by
  have hS : 5 + c5data.length ≤ MOD32 := by decide
  refine ⟨hS, ?_⟩
  have h := c5_posting_exact c5data 5 (fun _ => []) c5tri hS
  rw [h.1, h.2.2.2.1 (by decide), if_pos (by decide)]
  rfl

/-! ## Posting monotonicity (claim C6) -/

theorem tooManyLoop_const_mem :
    ∀ (n : ℕ) (seen : List ℕ) (t : ℕ), t ∈ seen → seen.length ≤ maxTrigramCount →
      tooManyLoop seen (funList (fun _ => t) n) = false := by
  intro n
  induction n with
  | zero => intro seen t _ _; rfl
  | succ n ih =>
    intro seen t hmem hlen
    show (if (trigramSeen seen t).length > maxTrigramCount then true
      else tooManyLoop (trigramSeen seen t) (funList (fun _ => t) n)) = false
    have hts : trigramSeen seen t = seen := by
      unfold trigramSeen
      rw [if_pos hmem]
    rw [hts, if_neg (by omega)]
    exact ih seen t hmem hlen

theorem tooManyLoop_const_nil (m t : ℕ) :
    tooManyLoop [] (funList (fun _ => t) m) = false := by
  cases m with
  | zero => rfl
  | succ m =>
    show (if (trigramSeen [] t).length > maxTrigramCount then true
      else tooManyLoop (trigramSeen [] t) (funList (fun _ => t) m)) = false
    have h : trigramSeen [] t = [t] := by
      unfold trigramSeen
      rw [if_neg (by simp)]
      rfl
    rw [h, if_neg (by simp [maxTrigramCount])]
    exact tooManyLoop_const_mem m [t] t (by simp) (by simp [maxTrigramCount])

theorem funList_const_dropLast (t : ℕ) :
    ∀ m : ℕ, (funList (fun _ => t) m).dropLast = funList (fun _ : ℕ => t) (m - 1) := by
  intro m
  cases m with
  | zero => rfl
  | succ m => exact funList_dropLast m _

theorem skipNonText_const (n : ℕ) : skipNonText (funList (fun _ : ℕ => b97) n) = false := by
  unfold skipNonText
  rw [ngramList_funList]
  show tooManyLoop [] ((funList (fun _ : ℕ => tAAA) (n - 2)).dropLast) = false
  rw [funList_const_dropLast]
  exact tooManyLoop_const_nil _ _

/-- The success path of Add: the outcome when neither the non-text skip nor
the overlap error fires. -/
theorem add_success (b : IndexBuilder) (doc : Document)
    (h1 : skipNonText doc.Content = false)
    (h2 : overlapCheck (sortDocSections doc.Symbols) = false) :
    (add b doc).2 = none ∧
      (add b doc).1.contentPostings = nsPostLoop b.contentPostings b.contentEnd doc.Content ∧
      (add b doc).1.contentEnd = (b.contentEnd + doc.Content.length) % MOD32 ∧
      (add b doc).1.namePostings = nsPostLoop b.namePostings b.nameEnd doc.Name ∧
      (add b doc).1.nameEnd = (b.nameEnd + doc.Name.length) % MOD32 := by
  unfold add
  simp [h1, h2, newSearchableString]

/-- C6, counterexample.  The claim quantifies over every sequence of
successful Add calls; it fails once the uint32 content region wraps: after
successfully adding a 2^32-byte document of 'a's (contentEnd wraps to 0) and
then the 3-byte document "aaa", the posting list of the trigram "aaa" ends
with the duplicate offset 0 and is not strictly increasing. -/
theorem c6_overflow_not_monotone :
    (add newIndexBuilder c6bigDoc).2 = none ∧
      (add (add newIndexBuilder c6bigDoc).1 c6smallDoc).2 = none ∧
      ¬ List.Pairwise (· < ·)
        ((add (add newIndexBuilder c6bigDoc).1 c6smallDoc).1.contentPostings tAAA) := by
  have hskip1 : skipNonText c6bigDoc.Content = false := skipNonText_const 4294967296
  have hskip2 : skipNonText c6smallDoc.Content = false := by decide
  obtain ⟨ha2, hacp, hace, _, _⟩ := add_success newIndexBuilder c6bigDoc hskip1 rfl
  obtain ⟨hb2, hbcp, _, _, _⟩ :=
    add_success (add newIndexBuilder c6bigDoc).1 c6smallDoc hskip2 rfl
  refine ⟨ha2, hb2, ?_⟩
  have hce0 : (add newIndexBuilder c6bigDoc).1.contentEnd = 0 := by
    rw [hace]
    have hlen : c6bigDoc.Content.length = 4294967296 := funList_length _ _
    show (newIndexBuilder.contentEnd + c6bigDoc.Content.length) % MOD32 = 0
    rw [hlen]
    rfl
  have hng : ngramList c6bigDoc.Content = funList (fun _ : ℕ => tAAA) 4294967294 := by
    show ngramList (funList (fun _ : ℕ => b97) 4294967296) = _
    rw [ngramList_funList]
    rfl
  have hbig : (add newIndexBuilder c6bigDoc).1.contentPostings tAAA =
      funList (fun i => (0 + i) % MOD32) 4294967294 := by
    rw [congrFun hacp tAAA, nsPostLoop_eq]
    show ([] : List ℕ) ++ offsList newIndexBuilder.contentEnd (ngramList c6bigDoc.Content)
      tAAA = _
    rw [List.nil_append, hng]
    exact offsList_const 4294967294 0 tAAA
  have hfinal : (add (add newIndexBuilder c6bigDoc).1 c6smallDoc).1.contentPostings tAAA =
      funList (fun i => (0 + i) % MOD32) 4294967294 ++ [0] := by
    rw [congrFun hbcp tAAA, nsPostLoop_eq, hbig, hce0]
    have hsm : ngramList c6smallDoc.Content = [tAAA] := rfl
    rw [hsm]
    show _ ++ ((if tAAA = tAAA then [0 % MOD32] else []) ++ offsList (0 + 1) [] tAAA) = _
    rw [if_pos rfl]
    rfl
  rw [hfinal]
  intro hp
  have h0A : (0 : ℕ) ∈ funList (fun i => (0 + i) % MOD32) 4294967294 :=
    (mem_funList _ _ _).mpr ⟨0, by norm_num, by simp⟩
  have := (List.pairwise_append.mp hp).2.2 0 h0A 0 (by simp)
  exact absurd this (lt_irrefl 0)

theorem postingsBounded_step (P : PostingsMap) (S : ℕ) (data : List Byte)
    (h : postingsBounded P S) (hlen : S + data.length < MOD32) :
    postingsBounded (nsPostLoop P S data) (S + data.length) := by
  intro g
  rw [nsPostLoop_eq data P S g]
  have hgs : (ngramList data).length = data.length - 2 := ngramList_length data
  have hbound : S + (ngramList data).length ≤ MOD32 := by omega
  constructor
  · rw [List.pairwise_append]
    refine ⟨(h g).1, offsList_pairwise _ _ _ hbound, ?_⟩
    intro a ha b hb
    have h1 := (h g).2 a ha
    have h2 := offsList_mem_bounds _ _ _ _ hbound hb
    omega
  · intro o ho
    rw [List.mem_append] at ho
    rcases ho with ho | ho
    · have := (h g).2 o ho
      omega
    · have := offsList_mem_bounds _ _ _ _ hbound ho
      omega

theorem add_inv_step (b : IndexBuilder) (doc : Document) (h : builderInv b)
    (hc : b.contentEnd + doc.Content.length < MOD32)
    (hn : b.nameEnd + doc.Name.length < MOD32) :
    builderInv (add b doc).1 ∧
      (add b doc).1.contentEnd ≤ b.contentEnd + doc.Content.length ∧
      (add b doc).1.nameEnd ≤ b.nameEnd + doc.Name.length := by
  unfold add
  by_cases h1 : skipNonText doc.Content = true
  · simp only [if_pos h1]
    exact ⟨h, by omega, by omega⟩
  · by_cases h2 : overlapCheck (sortDocSections doc.Symbols) = true
    · simp only [if_neg h1, if_pos h2]
      exact ⟨h, by omega, by omega⟩
    · simp only [if_neg h1, if_neg h2, newSearchableString]
      obtain ⟨hce, hne, hcp, hnp⟩ := h
      refine ⟨⟨?_, ?_, ?_, ?_⟩, ?_, ?_⟩
      · show (b.contentEnd + doc.Content.length) % MOD32 < MOD32
        rw [Nat.mod_eq_of_lt hc]
        exact hc
      · show (b.nameEnd + doc.Name.length) % MOD32 < MOD32
        rw [Nat.mod_eq_of_lt hn]
        exact hn
      · show postingsBounded (nsPostLoop b.contentPostings b.contentEnd doc.Content)
          ((b.contentEnd + doc.Content.length) % MOD32)
        rw [Nat.mod_eq_of_lt hc]
        exact postingsBounded_step _ _ _ hcp hc
      · show postingsBounded (nsPostLoop b.namePostings b.nameEnd doc.Name)
          ((b.nameEnd + doc.Name.length) % MOD32)
        rw [Nat.mod_eq_of_lt hn]
        exact postingsBounded_step _ _ _ hnp hn
      · show (b.contentEnd + doc.Content.length) % MOD32 ≤ b.contentEnd + doc.Content.length
        rw [Nat.mod_eq_of_lt hc]
      · show (b.nameEnd + doc.Name.length) % MOD32 ≤ b.nameEnd + doc.Name.length
        rw [Nat.mod_eq_of_lt hn]

theorem addAll_inv :
    ∀ (docs : List Document) (b : IndexBuilder), builderInv b →
      b.contentEnd + (docs.map fun d => d.Content.length).sum < MOD32 →
      b.nameEnd + (docs.map fun d => d.Name.length).sum < MOD32 →
      builderInv (addAll b docs) := by
  intro docs
  induction docs with
  | nil => intro b h _ _; exact h
  | cons d rest ih =>
    intro b h hc hn
    simp only [List.map_cons, List.sum_cons] at hc hn
    have hc1 : b.contentEnd + d.Content.length < MOD32 := by omega
    have hn1 : b.nameEnd + d.Name.length < MOD32 := by omega
    obtain ⟨hinv, hle1, hle2⟩ := add_inv_step b d h hc1 hn1
    show builderInv (addAll (add b d).1 rest)
    exact ih (add b d).1 hinv (by omega) (by omega)

/-- C6, amended claim: provided the sequence's total content bytes and total
name bytes each stay below 2^32 (no uint32 offset wraps -- the regime the
on-disk format supports), after any sequence of IndexBuilder.Add calls on a
fresh builder every posting list in the content postings map and in the name
postings map is strictly increasing: sorted ascending with no duplicate
offsets. -/
theorem c6_postings_monotone (docs : List Document)
    (hc : (docs.map fun d => d.Content.length).sum < MOD32)
    (hn : (docs.map fun d => d.Name.length).sum < MOD32) :
    ∀ g, List.Pairwise (· < ·) ((addAll newIndexBuilder docs).contentPostings g) ∧
      List.Pairwise (· < ·) ((addAll newIndexBuilder docs).namePostings g) := by
  have hinv0 : builderInv newIndexBuilder := by
    refine ⟨by norm_num [newIndexBuilder, MOD32], by norm_num [newIndexBuilder, MOD32], ?_, ?_⟩
    · intro g
      exact ⟨List.Pairwise.nil, by intro o ho; simp [newIndexBuilder] at ho⟩
    · intro g
      exact ⟨List.Pairwise.nil, by intro o ho; simp [newIndexBuilder] at ho⟩
  have h := addAll_inv docs newIndexBuilder hinv0
    (by simpa [newIndexBuilder] using hc) (by simpa [newIndexBuilder] using hn)
  intro g
  exact ⟨(h.2.2.1 g).1, (h.2.2.2 g).1⟩

/-- C6, witness: a one-document build within the size bound has strictly
increasing posting lists. -/
theorem c6_postings_monotone_witness :
    ([c6witnessDoc].map fun d => d.Content.length).sum < MOD32 ∧
      ([c6witnessDoc].map fun d => d.Name.length).sum < MOD32 ∧
      List.Pairwise (· < ·) ((addAll newIndexBuilder [c6witnessDoc]).contentPostings tAAA) := by
  have hc : ([c6witnessDoc].map fun d => d.Content.length).sum < MOD32 := by decide
  have hn : ([c6witnessDoc].map fun d => d.Name.length).sum < MOD32 := by decide
  exact ⟨hc, hn, (c6_postings_monotone [c6witnessDoc] hc hn tAAA).1⟩

/-! ## Match tree nextDoc contract (claim C7) -/

theorem init_le_foldl_max : ∀ (l : List ℕ) (a : ℕ), a ≤ l.foldl max a := by
  intro l
  induction l with
  | nil => intro a; exact le_rfl
  | cons x t ih => intro a; exact le_trans (le_max_left a x) (ih (max a x))

theorem foldl_max_eq_or_mem : ∀ (l : List ℕ) (a : ℕ), l.foldl max a = a ∨ l.foldl max a ∈ l := by
  intro l
  induction l with
  | nil => intro a; exact Or.inl rfl
  | cons x t ih =>
    intro a
    rcases ih (max a x) with h | h
    · rcases max_choice a x with hm | hm
      · exact Or.inl (by rw [List.foldl_cons, h, hm])
      · exact Or.inr (by rw [List.foldl_cons, h, hm]; exact List.mem_cons_self x t)
    · exact Or.inr (by rw [List.foldl_cons]; exact List.mem_cons_of_mem x h)

theorem le_foldl_max : ∀ (l : List ℕ) (a x : ℕ), x ∈ l → x ≤ l.foldl max a := by
  intro l
  induction l with
  | nil => intro a x hx; cases hx
  | cons y t ih =>
    intro a x hx
    rw [List.foldl_cons]
    rcases List.mem_cons.mp hx with hx | hx
    · subst hx
      exact le_trans (le_max_right a x) (init_le_foldl_max t (max a x))
    · exact ih (max a y) x hx

theorem foldl_min_le_init : ∀ (l : List ℕ) (a : ℕ), l.foldl min a ≤ a := by
  intro l
  induction l with
  | nil => intro a; exact le_rfl
  | cons x t ih => intro a; exact le_trans (ih (min a x)) (min_le_left a x)

theorem foldl_min_eq_or_mem : ∀ (l : List ℕ) (a : ℕ), l.foldl min a = a ∨ l.foldl min a ∈ l := by
  intro l
  induction l with
  | nil => intro a; exact Or.inl rfl
  | cons x t ih =>
    intro a
    rcases ih (min a x) with h | h
    · rcases min_choice a x with hm | hm
      · exact Or.inl (by rw [List.foldl_cons, h, hm])
      · exact Or.inr (by rw [List.foldl_cons, h, hm]; exact List.mem_cons_self x t)
    · exact Or.inr (by rw [List.foldl_cons]; exact List.mem_cons_of_mem x h)

theorem foldl_min_le : ∀ (l : List ℕ) (a x : ℕ), x ∈ l → l.foldl min a ≤ x := by
  intro l
  induction l with
  | nil => intro a x hx; cases hx
  | cons y t ih =>
    intro a x hx
    rw [List.foldl_cons]
    rcases List.mem_cons.mp hx with hx | hx
    · subst hx
      exact le_trans (foldl_min_le_init t (min a x)) (min_le_right a x)
    · exact ih (min a y) x hx

theorem nextDoc_and (cs : List MatchTree) :
    nextDoc (MatchTree.andNode cs) = (cs.map nextDoc).foldl max 0 := by
  rw [nextDoc, List.attach_map_val cs nextDoc]

theorem nextDoc_or (cs : List MatchTree) :
    nextDoc (MatchTree.orNode cs) = (cs.map nextDoc).foldl min maxUInt32 := by
  rw [nextDoc, List.attach_map_val cs nextDoc]

theorem nextDoc_not (child : MatchTree) : nextDoc (MatchTree.notNode child) = 0 := by
  rw [nextDoc]

theorem nextDoc_bruteForce (fd : Bool) (docID : ℕ) :
    nextDoc (MatchTree.bruteForce fd docID) = if fd then (docID + 1) % MOD32 else 0 := by
  rw [nextDoc]

theorem prepare_bruteForce (d : ℕ) (fd : Bool) (docID : ℕ) :
    prepare d (MatchTree.bruteForce fd docID) = MatchTree.bruteForce true d := by
  rw [prepare]

/-- C7: the nextDoc iteration contract.  (1) andMatchTree.nextDoc is the
maximum of its children's nextDoc values (it is one of them and an upper
bound); (2) orMatchTree.nextDoc is the minimum of its children's nextDoc
values (the children's values are uint32, hence bounded by maxUInt32, the
loop's seed); (3) notMatchTree.nextDoc is 0; (4) bruteForceMatchTree.nextDoc
is 0 before the first prepare call; (5) after prepare(d) it is d + 1 (the
current document id plus one). -/
theorem c7_nextDoc_contract :
    (∀ cs : List MatchTree, cs ≠ [] →
      nextDoc (MatchTree.andNode cs) ∈ cs.map nextDoc ∧
        ∀ c ∈ cs, nextDoc c ≤ nextDoc (MatchTree.andNode cs)) ∧
      (∀ cs : List MatchTree, cs ≠ [] → (∀ c ∈ cs, nextDoc c ≤ maxUInt32) →
        nextDoc (MatchTree.orNode cs) ∈ cs.map nextDoc ∧
          ∀ c ∈ cs, nextDoc (MatchTree.orNode cs) ≤ nextDoc c) ∧
      (∀ child : MatchTree, nextDoc (MatchTree.notNode child) = 0) ∧
      (∀ docID : ℕ, nextDoc (MatchTree.bruteForce false docID) = 0) ∧
      (∀ (fd : Bool) (docID d : ℕ), d + 1 < MOD32 →
        nextDoc (prepare d (MatchTree.bruteForce fd docID)) = d + 1) := by
  refine ⟨?_, ?_, nextDoc_not, ?_, ?_⟩
  · intro cs hne
    match cs with
    | c :: cs2 =>
      rw [nextDoc_and, List.map_cons, List.foldl_cons, max_eq_right (Nat.zero_le _)]
      constructor
      · rcases foldl_max_eq_or_mem (cs2.map nextDoc) (nextDoc c) with h | h
        · rw [h]; exact List.mem_cons_self _ _
        · exact List.mem_cons_of_mem _ h
      · intro x hx
        rcases List.mem_cons.mp hx with hx | hx
        · subst hx
          exact init_le_foldl_max _ _
        · exact le_foldl_max _ _ _ (List.mem_map_of_mem nextDoc hx)
  · intro cs hne hbd
    match cs with
    | c :: cs2 =>
      have hc : nextDoc c ≤ maxUInt32 := hbd c (List.mem_cons_self _ _)
      rw [nextDoc_or, List.map_cons, List.foldl_cons, min_eq_right hc]
      constructor
      · rcases foldl_min_eq_or_mem (cs2.map nextDoc) (nextDoc c) with h | h
        · rw [h]; exact List.mem_cons_self _ _
        · exact List.mem_cons_of_mem _ h
      · intro x hx
        rcases List.mem_cons.mp hx with hx | hx
        · subst hx
          exact foldl_min_le_init _ _
        · exact foldl_min_le _ _ _ (List.mem_map_of_mem nextDoc hx)
  · intro docID
    rw [nextDoc_bruteForce]
    rfl
  · intro fd docID d hd
    rw [prepare_bruteForce, nextDoc_bruteForce]
    simp [Nat.mod_eq_of_lt hd]

/-- C7, witness: the contract instantiated at concrete nodes. -/
theorem c7_nextDoc_contract_witness :
    nextDoc (MatchTree.andNode [MatchTree.bruteForce false 7]) ∈
        [MatchTree.bruteForce false 7].map nextDoc ∧
      nextDoc (MatchTree.orNode [MatchTree.bruteForce false 7]) ∈
        [MatchTree.bruteForce false 7].map nextDoc ∧
      nextDoc (MatchTree.notNode (MatchTree.bruteForce false 7)) = 0 ∧
      nextDoc (MatchTree.bruteForce false 7) = 0 ∧
      nextDoc (prepare 5 (MatchTree.bruteForce false 7)) = 6 := by
  have h := c7_nextDoc_contract
  have hbd : ∀ c ∈ [MatchTree.bruteForce false 7], nextDoc c ≤ maxUInt32 := by
    intro c hc
    rcases List.mem_singleton.mp hc with rfl
    rw [nextDoc_bruteForce]
    simp [maxUInt32]
  refine ⟨(h.1 _ (by simp)).1, (h.2.1 _ (by simp) hbd).1, h.2.2.1 _, h.2.2.2.1 7, ?_⟩
  have h6 := h.2.2.2.2 false 7 5 (by decide)
  exact h6

/-! ## Word-boundary scoring (claim C8) -/

/-- C8, counterexample.  The claim states that matchScore returns 50000
whenever both ends of the match fall on a byte-class boundary, with line
start and line end counting as boundaries.  On the empty match of an empty
line both ends are simultaneously the line start and the line end, yet the
source's guards (LineOff < len(Line) for the left end, end > 0 for the
right end) force both boundary tests false and the score is 0, not 50000. -/
theorem c8_empty_line_scores_zero :
    c8empty.LineOff + c8empty.MatchLength ≤ c8empty.Line.length ∧
      leftAtBoundary c8empty ∧ rightAtBoundary c8empty ∧
      matchScore c8empty = some 0 ∧ matchScore c8empty ≠ some scoreWordMatch := by
  refine ⟨by decide, by decide, by decide, by decide, by decide⟩

/-- C8, amended claim: for every Match m with LineOff + MatchLength at most
len(Line) (and LineOff nonnegative, built into the Nat model), PROVIDED the
line is nonempty, matchScore m returns 50000 when both the left and the
right end of the match fall on a byte-class boundary, 5000 when exactly one
does, and 0 otherwise. -/
theorem c8_matchScore_boundaries (m : Match)
    (hlen : m.LineOff + m.MatchLength ≤ m.Line.length) (hne : m.Line ≠ []) :
    matchScore m = some (if leftAtBoundary m ∧ rightAtBoundary m then scoreWordMatch
      else if leftAtBoundary m ∨ rightAtBoundary m then scorePartialWordMatch else 0) := by
  have hpos : 0 < m.Line.length := List.length_pos.mpr hne
  have hstart : (m.LineOff < m.Line.length ∧ (m.LineOff = 0 ∨
      byteClassOf (m.Line.getD (m.LineOff - 1) 0) ≠ byteClassOf (m.Line.getD m.LineOff 0)))
      ↔ leftAtBoundary m := by
    unfold leftAtBoundary
    constructor
    · rintro ⟨h1, h2 | h2⟩
      · exact Or.inl h2
      · exact Or.inr ⟨h1, h2⟩
    · rintro (h | ⟨h1, h2⟩)
      · exact ⟨by omega, Or.inl h⟩
      · exact ⟨h1, Or.inr h2⟩
  have hend : (0 < m.LineOff + m.MatchLength ∧ (m.LineOff + m.MatchLength = m.Line.length ∨
      byteClassOf (m.Line.getD (m.LineOff + m.MatchLength - 1) 0) ≠
        byteClassOf (m.Line.getD (m.LineOff + m.MatchLength) 0)))
      ↔ rightAtBoundary m := by
    unfold rightAtBoundary
    constructor
    · rintro ⟨h1, h2 | h2⟩
      · exact Or.inl h2
      · exact Or.inr ⟨h1, h2⟩
    · rintro (h | ⟨h1, h2⟩)
      · exact ⟨by omega, Or.inl h⟩
      · exact ⟨h1, Or.inr h2⟩
  simp only [matchScore]
  rw [if_neg (by omega)]
  simp only [hstart, hend]
  by_cases hl : leftAtBoundary m <;> by_cases hr : rightAtBoundary m <;> simp [hl, hr]

/-- C8, witness: a nonempty full-line match scores 50000. -/
theorem c8_matchScore_boundaries_witness :
    c8word.LineOff + c8word.MatchLength ≤ c8word.Line.length ∧
      c8word.Line ≠ [] ∧ matchScore c8word = some scoreWordMatch := by
  have h := c8_matchScore_boundaries c8word (by decide) (by decide)
  refine ⟨by decide, by decide, ?_⟩
  rw [h, if_pos (by decide)]

/-! ## Regex distillation (claim C9) -/

theorem distill_lit (m : ℕ) (runes : List ℕ) :
    regexpToQueryRecursive m (Rx.lit runes) =
      if m ≤ (strBytes runes).length then Q.substring (strBytes runes) else Q.const true := by
  rw [regexpToQueryRecursive]

theorem distill_cap (m : ℕ) (sub : Rx) :
    regexpToQueryRecursive m (Rx.cap sub) = regexpToQueryRecursive m sub := by
  rw [regexpToQueryRecursive]

theorem distill_plus (m : ℕ) (sub : Rx) :
    regexpToQueryRecursive m (Rx.plus sub) = regexpToQueryRecursive m sub := by
  rw [regexpToQueryRecursive]

theorem distill_rep (m : ℕ) (mn mx : ℤ) (sub : Rx) :
    regexpToQueryRecursive m (Rx.rep mn mx sub) =
      if 1 ≤ mn then regexpToQueryRecursive m sub else Q.const true := by
  rw [regexpToQueryRecursive]

theorem distill_cat (m : ℕ) (subs : List Rx) :
    regexpToQueryRecursive m (Rx.cat subs) =
      Q.and (subs.map (regexpToQueryRecursive m)) := by
  rw [regexpToQueryRecursive, List.attach_map_val subs (regexpToQueryRecursive m)]

theorem distill_alt (m : ℕ) (subs : List Rx) :
    regexpToQueryRecursive m (Rx.alt subs) =
      Q.or (subs.map (regexpToQueryRecursive m)) := by
  rw [regexpToQueryRecursive, List.attach_map_val subs (regexpToQueryRecursive m)]

theorem distill_star (m : ℕ) (sub : Rx) :
    regexpToQueryRecursive m (Rx.star sub) = Q.const true := by
  rw [regexpToQueryRecursive]

theorem distill_quest (m : ℕ) (sub : Rx) :
    regexpToQueryRecursive m (Rx.quest sub) = Q.const true := by
  rw [regexpToQueryRecursive]

theorem distill_charCls (m : ℕ) (runes : List ℕ) :
    regexpToQueryRecursive m (Rx.charCls runes) = Q.const true := by
  rw [regexpToQueryRecursive]

theorem distill_other (m : ℕ) :
    regexpToQueryRecursive m Rx.anyChar = Q.const true ∧
      regexpToQueryRecursive m Rx.anyCharNotNL = Q.const true ∧
      regexpToQueryRecursive m Rx.beginLine = Q.const true ∧
      regexpToQueryRecursive m Rx.endLine = Q.const true ∧
      regexpToQueryRecursive m Rx.beginText = Q.const true ∧
      regexpToQueryRecursive m Rx.endText = Q.const true ∧
      regexpToQueryRecursive m Rx.wordBoundary = Q.const true ∧
      regexpToQueryRecursive m Rx.noWordBoundary = Q.const true ∧
      regexpToQueryRecursive m Rx.emptyStr = Q.const true ∧
      regexpToQueryRecursive m Rx.noMatch = Q.const true := by
  refine ⟨?_, ?_, ?_, ?_, ?_, ?_, ?_, ?_, ?_, ?_⟩ <;> rw [regexpToQueryRecursive]

theorem occursIn_left {w1 w2 doc : List ℕ} (h : occursIn (w1 ++ w2) doc) : occursIn w1 doc := by
  obtain ⟨pre, post, hpp⟩ := h
  exact ⟨pre, w2 ++ post, by rw [hpp]; simp [List.append_assoc]⟩

theorem occursIn_right {w1 w2 doc : List ℕ} (h : occursIn (w1 ++ w2) doc) : occursIn w2 doc := by
  obtain ⟨pre, post, hpp⟩ := h
  exact ⟨pre ++ w1, post, by rw [hpp]; simp [List.append_assoc]⟩

/-- Soundness of distillation: whenever the regex matches a byte string that
occurs in the document, the distilled query holds of the document.  The
distilled query therefore accepts a superset of the documents the regex can
match in. -/
theorem distill_superset :
    ∀ (r : Rx) (w : List ℕ), RMatch r w →
      ∀ doc : List ℕ, occursIn w doc → QHolds (regexpToQueryRecursive 3 r) doc := by
  intro r w h
  induction h with
  | lit runes =>
    intro doc hocc
    rw [distill_lit]
    split
    · exact QHolds.substring _ _ hocc
    · exact QHolds.const doc
  | cap hsub ih =>
    intro doc hocc
    rw [distill_cap]
    exact ih doc hocc
  | plusOne hsub ih =>
    intro doc hocc
    rw [distill_plus]
    exact ih doc hocc
  | plusCons h1 h2 ih1 ih2 =>
    intro doc hocc
    rw [distill_plus]
    exact ih1 doc (occursIn_left hocc)
  | starNil s =>
    intro doc hocc
    rw [distill_star]
    exact QHolds.const doc
  | starCons h1 h2 ih1 ih2 =>
    intro doc hocc
    rw [distill_star]
    exact QHolds.const doc
  | questNil s =>
    intro doc hocc
    rw [distill_quest]
    exact QHolds.const doc
  | questOne hsub ih =>
    intro doc hocc
    rw [distill_quest]
    exact QHolds.const doc
  | rep ws hall hmin hmax ih =>
    intro doc hocc
    rw [distill_rep]
    split
    · next hmn =>
      match ws, hocc, ih with
      | [], hocc, ih =>
        exfalso
        simp at hmin
        omega
      | w1 :: rest, hocc, ih =>
        have hocc1 : occursIn w1 doc := by
          rw [List.flatten_cons] at hocc
          exact occursIn_left hocc
        exact ih w1 (List.mem_cons_self _ _) doc hocc1
    · exact QHolds.const doc
  | catNil =>
    intro doc hocc
    rw [distill_cat]
    exact QHolds.and _ doc (by intro q hq; cases hq)
  | catCons h1 h2 ih1 ih2 =>
    intro doc hocc
    rw [distill_cat]
    refine QHolds.and _ doc ?_
    intro q hq
    rw [List.map_cons, List.mem_cons] at hq
    rcases hq with hq | hq
    · subst hq
      exact ih1 doc (occursIn_left hocc)
    · have h2q := ih2 doc (occursIn_right hocc)
      rw [distill_cat] at h2q
      cases h2q with
      | and _ _ hall2 => exact hall2 q hq
  | alt hmem hsub ih =>
    intro doc hocc
    rw [distill_alt]
    exact QHolds.or _ doc _ (List.mem_map_of_mem _ hmem) (ih doc hocc)
  | charCls hin =>
    intro doc hocc
    rw [distill_charCls]
    exact QHolds.const doc
  | anyChar r =>
    intro doc hocc
    rw [(distill_other 3).1]
    exact QHolds.const doc
  | anyCharNotNL r hr =>
    intro doc hocc
    rw [(distill_other 3).2.1]
    exact QHolds.const doc
  | beginLine =>
    intro doc hocc
    rw [(distill_other 3).2.2.1]
    exact QHolds.const doc
  | endLine =>
    intro doc hocc
    rw [(distill_other 3).2.2.2.1]
    exact QHolds.const doc
  | beginText =>
    intro doc hocc
    rw [(distill_other 3).2.2.2.2.1]
    exact QHolds.const doc
  | endText =>
    intro doc hocc
    rw [(distill_other 3).2.2.2.2.2.1]
    exact QHolds.const doc
  | wordBoundary =>
    intro doc hocc
    rw [(distill_other 3).2.2.2.2.2.2.1]
    exact QHolds.const doc
  | noWordBoundary =>
    intro doc hocc
    rw [(distill_other 3).2.2.2.2.2.2.2.1]
    exact QHolds.const doc
  | emptyStr =>
    intro doc hocc
    rw [(distill_other 3).2.2.2.2.2.2.2.2.1]
    exact QHolds.const doc

/-- C9: the distillation rules with minTextSize = 3, exactly as the claim
lists them, together with the superset property: a Literal of at least 3
bytes becomes the corresponding Substring and a shorter one Const(true);
Concat becomes the And and Alternate the Or of the distilled children;
Capture, Plus, and Repeat with min >= 1 distill to their sub-expression,
Repeat with min < 1 to Const(true); every other operator becomes
Const(true); and whenever the regex matches a byte string occurring in a
document, the distilled query holds of that document. -/
theorem c9_distiller_rules :
    (∀ runes, 3 ≤ (strBytes runes).length →
      regexpToQueryRecursive 3 (Rx.lit runes) = Q.substring (strBytes runes)) ∧
      (∀ runes, (strBytes runes).length < 3 →
        regexpToQueryRecursive 3 (Rx.lit runes) = Q.const true) ∧
      (∀ subs, regexpToQueryRecursive 3 (Rx.cat subs) =
        Q.and (subs.map (regexpToQueryRecursive 3))) ∧
      (∀ subs, regexpToQueryRecursive 3 (Rx.alt subs) =
        Q.or (subs.map (regexpToQueryRecursive 3))) ∧
      (∀ sub, regexpToQueryRecursive 3 (Rx.cap sub) = regexpToQueryRecursive 3 sub) ∧
      (∀ sub, regexpToQueryRecursive 3 (Rx.plus sub) = regexpToQueryRecursive 3 sub) ∧
      (∀ mn mx sub, 1 ≤ mn →
        regexpToQueryRecursive 3 (Rx.rep mn mx sub) = regexpToQueryRecursive 3 sub) ∧
      (∀ mn mx sub, mn < 1 →
        regexpToQueryRecursive 3 (Rx.rep mn mx sub) = Q.const true) ∧
      (∀ sub runes, regexpToQueryRecursive 3 (Rx.star sub) = Q.const true ∧
        regexpToQueryRecursive 3 (Rx.quest sub) = Q.const true ∧
        regexpToQueryRecursive 3 (Rx.charCls runes) = Q.const true ∧
        regexpToQueryRecursive 3 Rx.anyChar = Q.const true ∧
        regexpToQueryRecursive 3 Rx.anyCharNotNL = Q.const true ∧
        regexpToQueryRecursive 3 Rx.beginLine = Q.const true ∧
        regexpToQueryRecursive 3 Rx.endLine = Q.const true ∧
        regexpToQueryRecursive 3 Rx.beginText = Q.const true ∧
        regexpToQueryRecursive 3 Rx.endText = Q.const true ∧
        regexpToQueryRecursive 3 Rx.wordBoundary = Q.const true ∧
        regexpToQueryRecursive 3 Rx.noWordBoundary = Q.const true ∧
        regexpToQueryRecursive 3 Rx.emptyStr = Q.const true ∧
        regexpToQueryRecursive 3 Rx.noMatch = Q.const true) ∧
      (∀ (r : Rx) (w doc : List ℕ), RMatch r w → occursIn w doc →
        QHolds (regexpToQueryRecursive 3 r) doc) := by
  refine ⟨?_, ?_, distill_cat 3, distill_alt 3, distill_cap 3, distill_plus 3, ?_, ?_, ?_, ?_⟩
  · intro runes h
    rw [distill_lit, if_pos h]
  · intro runes h
    rw [distill_lit, if_neg (by omega)]
  · intro mn mx sub h
    rw [distill_rep, if_pos h]
  · intro mn mx sub h
    rw [distill_rep, if_neg (by omega)]
  · intro sub runes
    have ho := distill_other 3
    exact ⟨distill_star 3 sub, distill_quest 3 sub, distill_charCls 3 runes, ho.1, ho.2.1,
      ho.2.2.1, ho.2.2.2.1, ho.2.2.2.2.1, ho.2.2.2.2.2.1, ho.2.2.2.2.2.2.1,
      ho.2.2.2.2.2.2.2.1, ho.2.2.2.2.2.2.2.2.1, ho.2.2.2.2.2.2.2.2.2⟩
  · intro r w doc hm hocc
    exact distill_superset r w hm doc hocc

/-- C9, witness: the rules instantiated at a 3-byte literal and a Repeat
with min 1, plus the superset property at a concrete match. -/
theorem c9_distiller_rules_witness :
    3 ≤ (strBytes [97, 98, 99]).length ∧
      regexpToQueryRecursive 3 (Rx.lit [97, 98, 99]) = Q.substring (strBytes [97, 98, 99]) ∧
      regexpToQueryRecursive 3 (Rx.rep 1 3 (Rx.lit [97, 98, 99])) =
        regexpToQueryRecursive 3 (Rx.lit [97, 98, 99]) ∧
      QHolds (regexpToQueryRecursive 3 (Rx.lit [97, 98, 99])) [97, 98, 99] := by
  have h := c9_distiller_rules
  have h3 : 3 ≤ (strBytes [97, 98, 99]).length := by decide
  refine ⟨h3, h.1 _ h3, h.2.2.2.2.2.2.1 1 3 _ (by norm_num), ?_⟩
  have hm : RMatch (Rx.lit [97, 98, 99]) (strBytes [97, 98, 99]) := RMatch.lit _
  have hocc : occursIn (strBytes [97, 98, 99]) [97, 98, 99] := ⟨[], [], by decide⟩
  exact h.2.2.2.2.2.2.2.2.2 _ _ _ hm hocc

end Zoekt
